import Mathlib

/-!
Verification development for the go-watchdir sweep/diff engine.

The definitions below are a shallow embedding of the watcher implementation
(`watcher` with its `dirCache`, `Sweep`, `sweep`, `sweepDeleted`,
`prependSubRoot`, `getSweepFS`, `normalizePath`, `WithSubRoot` and the
option defaults).  Modelling conventions:

* Go maps (`map[string]fs.DirEntry`, `map[string]*dirCache`) are modelled as
  association lists `List (String × _)`; iteration order is the list order
  (Go map iteration order is unspecified, the claims are order-insensitive
  or about phase ordering only).
* File-system paths handed to `fs.ReadDir`, `path.Join(p, name)` and the
  event paths are modelled as component lists `List String`; `path.Join` on
  an already-clean directory path and a valid entry name appends one
  component, and the root `"."` is the empty component list.
* `time.Time` is modelled as `Int` (nanoseconds); `t.Add(d).After(now)` is
  `t + d > now`.  A single `now` is taken per sweep.
* The `context.Context` of the plain `sweep` models `context.Background()`:
  it is never cancelled, so the `ctx.Err()` poll and the `select` around
  each channel send always take the non-cancelled branch.  A separate
  definition `sweepC` threads a cancellation budget to model a context that
  becomes cancelled during the traversal (the budget counts the checkpoints
  that pass before cancellation is observed).
* The `depth >= wd.maxDepth` guard is modelled by structural fuel with
  `fuel = maxDepth - depth`; the top-level `Sweep` starts with
  `fuel = wd.maxDepth` mirroring the initial call at depth 0.
* The concurrent errgroup fan-out over child directories is serialised in
  listing order; the first child error aborts the remaining children,
  matching the first-error-cancels-siblings semantics.
* `fs.FS` is modelled as a finite tree; `fs.Stat`/`entry.Info()` never fail
  spuriously, and the only file metadata the watcher reads (is-directory,
  mod time) is carried on the tree.  Directory mod times are never
  inspected by the watcher (the stability gate applies to files only), so
  they are modelled as 0.
-/

namespace Watchdir

/-- Paths relative to the watched root, as a list of components. -/
abbrev Path := List String

/-- Errors a sweep can return: context cancellation, the missing-sub-root
condition of `getSweepFS`, a `fs.ReadDir` failure (the path is not a
directory), and errors returned by a user-supplied filter. -/
inductive Err where
  | canceled
  | rootNotFound
  | notDir (p : Path)
  | filterFailed (p : Path)
deriving DecidableEq, Repr

/-- The data the watcher reads from an `fs.DirEntry`: `IsDir` and
`Info().ModTime()`. -/
structure Entry where
  isDir : Bool
  modTime : Int
deriving DecidableEq, Repr

/-- A file-system tree standing for the `fs.FS` backend. -/
inductive FSNode where
  | file (modTime : Int)
  | dir (entries : List (String × FSNode))

/-- Go `m[k]` lookup on an association list (first occurrence). -/
def lookupKey (n : String) : List (String × α) → Option α
  | [] => none
  | (m, v) :: rest => if m = n then some v else lookupKey n rest

/-- Go `delete(m, k)` on an association list. -/
def eraseKey (n : String) : List (String × α) → List (String × α)
  | [] => []
  | (m, v) :: rest => if m = n then eraseKey n rest else (m, v) :: eraseKey n rest

/-- Go `m[k] = v` on an association list (replace first occurrence or append). -/
def insertKey (n : String) (v : α) : List (String × α) → List (String × α)
  | [] => [(n, v)]
  | (m, w) :: rest => if m = n then (n, v) :: rest else (m, w) :: insertKey n v rest

/-- The `fs.DirEntry` data of a tree node. -/
def entryOf : FSNode → Entry
  | .file t => ⟨false, t⟩
  | .dir _ => ⟨true, 0⟩

/-- Resolve a path inside the file-system tree (the lookup underlying
`fs.Stat` and `fs.Sub`). -/
def fsFind : FSNode → Path → Option FSNode
  | node, [] => some node
  | .file _, _ :: _ => none
  | .dir es, n :: rest =>
    match lookupKey n es with
    | some c => fsFind c rest
    | none => none

/-- Model of `fs.ReadDir(fsys, p)` followed by the per-entry `Info()` reads:
the listing of names with their entry data, or `none` when the path does not
name a directory. -/
def readDir (fsys : FSNode) (p : Path) : Option (List (String × Entry)) :=
  match fsFind fsys p with
  | some (.dir es) => some (es.map fun pr => (pr.1, entryOf pr.2))
  | _ => none

/-- The `dirCache` node retained between sweeps: the entries observed on the
previous sweep and one child cache per subdirectory. -/
inductive DirCache where
  | mk (entries : List (String × Entry)) (children : List (String × DirCache))

/-- Entries of a cache node (previous sweep's surviving listing). -/
def DirCache.entries : DirCache → List (String × Entry)
  | .mk e _ => e

/-- Child cache nodes of a cache node. -/
def DirCache.children : DirCache → List (String × DirCache)
  | .mk _ c => c

/-- Model of `newDirCache()`. -/
def newDirCache : DirCache := .mk [] []

/-- EventType bitmask values (`FileAdded`, `FileRemoved`, `AllEvents`). -/
def FileAdded : Nat := 1

/-- Bit for removal events. -/
def FileRemoved : Nat := 2

/-- Default mask: all events enabled. -/
def AllEvents : Nat := 255

/-- A file event delivered on the events channel. -/
structure Event where
  typ : Nat
  file : Path
deriving DecidableEq, Repr

/-- A `Filter`: `Filter(ctx, path) -> (bool, error)`. -/
abbrev Filter := Path → Except Err Bool

/-- The watcher configuration (the fields of the `watcher` struct that the
sweep algorithm reads; the file system and the retained cache are passed
explicitly). -/
structure Watcher where
  subRoot : Path
  eventsMask : Nat
  fileFilter : Option Filter
  dirFilter : Option Filter
  maxDepth : Nat
  writeStabilityThreshold : Int

/-- Model of `prependSubRoot`: the identity when no sub-root is configured,
otherwise `path.Join(subRoot, name)`. -/
def prependSubRoot (wd : Watcher) (p : Path) : Path :=
  if wd.subRoot = [] then p else wd.subRoot ++ p

/-- Model of `getSweepFS`: without a sub-root the base file system is used;
otherwise the sub-root must resolve (`fs.Stat`), and the sweep runs on the
sub-tree (`fs.Sub`). -/
def getSweepFS (wd : Watcher) (fsys : FSNode) : Except Err FSNode :=
  if wd.subRoot = [] then .ok fsys
  else
    match fsFind fsys wd.subRoot with
    | none => .error .rootNotFound
    | some node => .ok node

/-- The effective file filter: a nil filter keeps everything
(`if wd.fileFilter != nil` guard around each filter consultation). -/
def filterOf (wd : Watcher) (q : Path) : Except Err Bool :=
  match wd.fileFilter with
  | none => Except.ok true
  | some f => f q

/-- The effective directory filter: a nil filter descends everywhere
(`if wd.dirFilter != nil` guard). -/
def dirOf (wd : Watcher) (q : Path) : Except Err Bool :=
  match wd.dirFilter with
  | none => Except.ok true
  | some f => f q

/-- The file-filter deletion loop of `sweep`: entries that are not
directories and that the file filter rejects are deleted from the listing;
a filter error aborts the sweep. -/
def filterPass (f : Filter) (wd : Watcher) (p : Path) :
    List (String × Entry) → Except Err (List (String × Entry))
  | [] => .ok []
  | (n, e) :: rest =>
    if e.isDir then (filterPass f wd p rest).map ((n, e) :: ·)
    else
      match f (prependSubRoot wd (p ++ [n])) with
      | .error er => .error er
      | .ok true => (filterPass f wd p rest).map ((n, e) :: ·)
      | .ok false => filterPass f wd p rest

/-- The whole filter block (`if wd.fileFilter != nil { ... }`). -/
def filterEntries (wd : Watcher) (p : Path) (l : List (String × Entry)) :
    Except Err (List (String × Entry)) :=
  match wd.fileFilter with
  | none => .ok l
  | some f => filterPass f wd p l

/-- Result of the added-detection loop: the surviving entries (the listing
after the unstable new files were deleted), the Added events sent so far,
and the error that aborted the loop, if any. -/
structure AddRes where
  kept : List (String × Entry)
  events : List Event
  err : Option Err

/-- The added-detection loop of `sweep`.  For each listed entry: directories
are skipped; entries already in the cache are skipped; the file filter gets
a second chance to reject (the source re-checks it); files still within the
write-stability threshold are deleted from the listing; surviving new files
produce an Added event when the mask enables it.  On error the entries
value is unused by the caller (the sweep aborts before the cache update). -/
def addedPass (wd : Watcher) (now : Int) (p : Path)
    (cacheEntries : List (String × Entry)) :
    List (String × Entry) → AddRes
  | [] => ⟨[], [], none⟩
  | (n, e) :: rest =>
    if e.isDir then
      let r := addedPass wd now p cacheEntries rest
      ⟨(n, e) :: r.kept, r.events, r.err⟩
    else if (lookupKey n cacheEntries).isSome then
      let r := addedPass wd now p cacheEntries rest
      ⟨(n, e) :: r.kept, r.events, r.err⟩
    else
      match filterOf wd (prependSubRoot wd (p ++ [n])) with
      | .error er => ⟨[], [], some er⟩
      | .ok false => addedPass wd now p cacheEntries rest
      | .ok true =>
        if 0 < wd.writeStabilityThreshold ∧
            e.modTime + wd.writeStabilityThreshold > now then
          addedPass wd now p cacheEntries rest
        else
          let r := addedPass wd now p cacheEntries rest
          ⟨(n, e) :: r.kept,
            (if wd.eventsMask.land FileAdded ≠ 0 then
              [⟨FileAdded, prependSubRoot wd (p ++ [n])⟩] else []) ++ r.events,
            r.err⟩

mutual

/-- Model of `sweepDeleted`: emit a Removed event for every file entry that
was cached under a directory that disappeared, recursing depth-first into
the cached child of every cached directory entry.  Only the context can
abort it; the plain model is the never-cancelled context. -/
def sweepDeleted (wd : Watcher) (p : Path) : DirCache → List Event
  | .mk entries children => sweepDeletedEntries wd p entries children
termination_by c => sizeOf c
decreasing_by all_goals simp_wf

/-- Loop of `sweepDeleted` over the cached entries. -/
def sweepDeletedEntries (wd : Watcher) (p : Path) :
    List (String × Entry) → List (String × DirCache) → List Event
  | [], _ => []
  | (n, pe) :: rest, children =>
    (if pe.isDir then sweepDeletedChild wd (p ++ [n]) n children
     else if wd.eventsMask.land FileRemoved ≠ 0 then
       [⟨FileRemoved, prependSubRoot wd (p ++ [n])⟩]
     else []) ++ sweepDeletedEntries wd p rest children
termination_by es ch => sizeOf es + sizeOf ch
decreasing_by all_goals simp_wf

/-- Lookup of `cache.children[name]` fused with the recursive call (a nil
child yields no events). -/
def sweepDeletedChild (wd : Watcher) (p : Path) (n : String) :
    List (String × DirCache) → List Event
  | [] => []
  | (m, c) :: rest =>
    if m = n then sweepDeleted wd p c else sweepDeletedChild wd p n rest
termination_by ch => sizeOf ch
decreasing_by all_goals simp_wf <;> omega

end

/-- Result of the removed-detection loop: the children map after the dead
subtrees were deleted, and the Removed events. -/
structure RemRes where
  children : List (String × DirCache)
  events : List Event

/-- The removed-detection loop of `sweep`: every cached name absent from the
surviving listing is reported — directly for a file (mask permitting), via
`sweepDeleted` for a directory, whose child cache subtree is then deleted. -/
def removedPass (wd : Watcher) (p : Path) (kept : List (String × Entry)) :
    List (String × Entry) → List (String × DirCache) → RemRes
  | [], children => ⟨children, []⟩
  | (n, pe) :: rest, children =>
    if (lookupKey n kept).isSome then removedPass wd p kept rest children
    else if pe.isDir then
      let ev :=
        match lookupKey n children with
        | some c => sweepDeleted wd (p ++ [n]) c
        | none => []
      let r := removedPass wd p kept rest (eraseKey n children)
      ⟨r.children, ev ++ r.events⟩
    else
      let ev :=
        if wd.eventsMask.land FileRemoved ≠ 0 then
          [⟨FileRemoved, prependSubRoot wd (p ++ [n])⟩]
        else []
      let r := removedPass wd p kept rest children
      ⟨r.children, ev ++ r.events⟩

/-- The loop that creates missing child cache nodes for the current
directory entries before the fan-out. -/
def ensureChildren : List (String × Entry) → List (String × DirCache) →
    List (String × DirCache)
  | [], ch => ch
  | (n, e) :: rest, ch =>
    if e.isDir && (lookupKey n ch).isNone then
      ensureChildren rest (insertKey n newDirCache ch)
    else ensureChildren rest ch

/-- Result of the child fan-out: updated children, events, first error. -/
structure ChildRes where
  children : List (String × DirCache)
  events : List Event
  err : Option Err

/-- Result of one sweep: the updated cache, the events sent on the channel,
and the returned error, if any.  (The Go method mutates the cache in place
and sends events as it goes, so both are returned even on error.) -/
structure SweepOut where
  cache : DirCache
  events : List Event
  err : Option Err

/-- The child fan-out of `sweep`: every current directory entry is swept
recursively against its child cache node; the first error aborts the
remaining children (the errgroup cancels its siblings). -/
def sweepChildren (recur : Path → DirCache → SweepOut) (p : Path) :
    List (String × Entry) → List (String × DirCache) → ChildRes
  | [], ch => ⟨ch, [], none⟩
  | (n, e) :: rest, ch =>
    if e.isDir then
      match lookupKey n ch with
      | none => sweepChildren recur p rest ch
      | some c =>
        let r := recur (p ++ [n]) c
        let ch' := insertKey n r.cache ch
        match r.err with
        | some er => ⟨ch', r.events, some er⟩
        | none =>
          let rr := sweepChildren recur p rest ch'
          ⟨rr.children, r.events ++ rr.events, rr.err⟩
    else sweepChildren recur p rest ch

/-- The recursive `sweep` method (never-cancelled context).  Order of one
visit: directory filter, depth guard, `ReadDir`, file-filter deletions,
added detection, removed detection, cache-entries update, child cache
creation, recursive fan-out. -/
def sweep (wd : Watcher) (now : Int) (fsys : FSNode) :
    Nat → Path → DirCache → SweepOut
  | fuel, p, cache =>
    match dirOf wd (prependSubRoot wd p) with
    | .error er => ⟨cache, [], some er⟩
    | .ok false => ⟨cache, [], none⟩
    | .ok true =>
      match fuel with
      | 0 => ⟨cache, [], none⟩
      | fuel' + 1 =>
        match readDir fsys p with
        | none => ⟨cache, [], some (.notDir p)⟩
        | some listing =>
          match filterEntries wd p listing with
          | .error er => ⟨cache, [], some er⟩
          | .ok l2 =>
            let a := addedPass wd now p cache.entries l2
            match a.err with
            | some er => ⟨cache, a.events, some er⟩
            | none =>
              let r := removedPass wd p a.kept cache.entries cache.children
              let ch2 := ensureChildren a.kept r.children
              let c := sweepChildren (fun q cc => sweep wd now fsys fuel' q cc)
                p a.kept ch2
              ⟨.mk a.kept c.children, a.events ++ r.events ++ c.events, c.err⟩

/-- The public `Sweep` method: resolve the sweep file system (sub-root
handling) and run the recursive sweep from the root `"."` at depth 0. -/
def Sweep (wd : Watcher) (now : Int) (fsys : FSNode) (cache : DirCache) :
    SweepOut :=
  match getSweepFS wd fsys with
  | .error er => ⟨cache, [], some er⟩
  | .ok sub => sweep wd now sub wd.maxDepth [] cache

/-- Default `maxDepth` (`DefaultMaxDepth = 10`). -/
def DefaultMaxDepth : Nat := 10

/-- Default write-stability threshold (`15 * time.Second`, in nanoseconds). -/
def DefaultWriteStabilityThreshold : Int := 15000000000

/-- The watcher configuration produced by `New(fsys)` before any option is
applied: all events, no filters, no sub-root, default depth and threshold. -/
def NewWatcher : Watcher :=
  ⟨[], AllEvents, none, none, DefaultMaxDepth, DefaultWriteStabilityThreshold⟩

/-! Vocabulary used by the statements below. -/

/-- Whether an entry is within the write-stability window at time `now`
(`stat.ModTime().Add(threshold).After(now)` under the `threshold > 0`
guard). -/
def unstableB (wd : Watcher) (now : Int) (e : Entry) : Bool :=
  decide (0 < wd.writeStabilityThreshold ∧
    e.modTime + wd.writeStabilityThreshold > now)

/-- Whether a listed entry survives the added-detection loop into the
updated cache, given the previous cache entries. -/
def keepB (wd : Watcher) (now : Int) (ce : List (String × Entry))
    (pr : String × Entry) : Bool :=
  pr.2.isDir || (lookupKey pr.1 ce).isSome || !unstableB wd now pr.2

/-- Whether a listed entry is reported as newly added, given the previous
cache entries. -/
def addB (wd : Watcher) (now : Int) (ce : List (String × Entry))
    (pr : String × Entry) : Bool :=
  !pr.2.isDir && (lookupKey pr.1 ce).isNone && !unstableB wd now pr.2

/-- Whether a listed entry survives the file-filter deletion loop. -/
def filterKeepB (wd : Watcher) (p : Path) (pr : String × Entry) : Bool :=
  pr.2.isDir ||
    (match filterOf wd (prependSubRoot wd (p ++ [pr.1])) with
     | .ok true => true
     | _ => false)

/-- Distinctness of the names of an association list (file systems list
each name once; cache nodes built by sweeps inherit this). -/
def keysNodup (l : List (String × α)) : Prop :=
  (l.map Prod.fst).Nodup

/-- Well-formed file-system tree: every directory lists distinct names. -/
inductive FSNode.WF : FSNode → Prop where
  | file (t : Int) : FSNode.WF (.file t)
  | dir (es : List (String × FSNode)) (hn : keysNodup es)
      (hc : ∀ n c, (n, c) ∈ es → FSNode.WF c) : FSNode.WF (.dir es)

mutual

/-- Specification-side reading of step 7 of the per-directory algorithm:
the full paths of every file transitively cached under a cache node —
the non-directory names among its entries, and, depth-first, the files
cached under the child node of each directory-typed entry.  No filtering
is applied. -/
def cachedFilePaths (p : Path) : DirCache → List Path
  | .mk entries children => cachedFilePathsEntries p entries children
termination_by c => sizeOf c
decreasing_by all_goals simp_wf

/-- Walk of `cachedFilePaths` over the cached entries. -/
def cachedFilePathsEntries (p : Path) :
    List (String × Entry) → List (String × DirCache) → List Path
  | [], _ => []
  | (n, pe) :: rest, children =>
    (if pe.isDir then cachedFilePathsChild (p ++ [n]) n children
     else [p ++ [n]]) ++ cachedFilePathsEntries p rest children
termination_by es ch => sizeOf es + sizeOf ch
decreasing_by all_goals simp_wf

/-- Files cached under the child node of one directory entry (none when the
child node is absent). -/
def cachedFilePathsChild (p : Path) (n : String) :
    List (String × DirCache) → List Path
  | [] => []
  | (m, c) :: rest =>
    if m = n then cachedFilePaths p c else cachedFilePathsChild p n rest
termination_by ch => sizeOf ch
decreasing_by all_goals simp_wf <;> omega

end

/-! Model of `normalizePath` (`path.Clean` followed by `strings.Trim(_, "/")`
and the `"." ↦ ""` special case) and of the `WithSubRoot` option.  The
`lazybuf` of `path.Clean` is modelled as the list of written characters;
its write index `w` is the list length, and truncating the buffer drops
characters from the end. -/

/-- The backtracking loop of the `..` case of `path.Clean`: characters are
dropped from the end of the buffer until the buffer shrinks to `dotdot` or
the character just dropped is a slash.  The fuel starts at the buffer
length, which the loop can never exhaust. -/
def backtrackLoop (dotdot : Nat) : Nat → List Char → Char → List Char
  | 0, out, _ => out
  | fuel + 1, out, dropped =>
    if dotdot < out.length ∧ dropped ≠ '/' then
      match out.getLast? with
      | some c => backtrackLoop dotdot fuel out.dropLast c
      | none => out
    else out

/-- The `out.w--` followed by the backtracking loop. -/
def backtrack (dotdot : Nat) (out : List Char) : List Char :=
  match out.getLast? with
  | some c => backtrackLoop dotdot out.length out.dropLast c
  | none => out

/-- The main loop of `path.Clean` over the remaining input characters.
State: the output buffer, the `dotdot` barrier, whether the path was
rooted.  The fuel starts at the input length; every step consumes at least
one character and one unit of fuel, so the fuel never runs out. -/
def cleanLoop (rooted : Bool) : Nat → List Char → List Char → Nat → List Char
  | _, [], out, _ => out
  | 0, _, out, _ => out
  | fuel + 1, ch :: rest, out, dotdot =>
    if ch = '/' then
      cleanLoop rooted fuel rest out dotdot
    else if ch = '.' ∧ (rest = [] ∨ rest.head? = some '/') then
      cleanLoop rooted fuel rest out dotdot
    else if ch = '.' ∧ rest.head? = some '.' ∧
        (rest.tail = [] ∨ rest.tail.head? = some '/') then
      if dotdot < out.length then
        cleanLoop rooted fuel rest.tail (backtrack dotdot out) dotdot
      else if !rooted then
        let out2 := (if 0 < out.length then out ++ ['/'] else out) ++ ['.', '.']
        cleanLoop rooted fuel rest.tail out2 out2.length
      else cleanLoop rooted fuel rest.tail out dotdot
    else
      let out2 :=
        if (rooted ∧ out.length ≠ 1) ∨ (!rooted ∧ out.length ≠ 0) then
          out ++ ['/']
        else out
      let elem := (ch :: rest).takeWhile (· ≠ '/')
      cleanLoop rooted fuel ((ch :: rest).dropWhile (· ≠ '/'))
        (out2 ++ elem) dotdot

/-- Model of `path.Clean` on the character list of the path. -/
def pathCleanList (cs : List Char) : List Char :=
  match cs with
  | [] => ['.']
  | ch :: rest =>
    let rooted := decide (ch = '/')
    let out0 : List Char := if rooted then ['/'] else []
    let dd0 : Nat := if rooted then 1 else 0
    let input := if rooted then rest else ch :: rest
    let out := cleanLoop rooted (cs.length) input out0 dd0
    if out.length = 0 then ['.'] else out

/-- Model of `path.Clean`. -/
def pathClean (s : String) : String := ⟨pathCleanList s.data⟩

/-- Model of `strings.Trim(s, "/")`. -/
def trimSlashes (s : String) : String :=
  ⟨((s.data.dropWhile (· == '/')).reverse.dropWhile (· == '/')).reverse⟩

/-- Model of `normalizePath`: clean, trim slashes, map `"."` to `""`. -/
def normalizePath (name : String) : String :=
  let trimmed := trimSlashes (pathClean name)
  if trimmed = "." then "" else trimmed

/-- Components of a normalized sub-root string (the boundary between the
string world of the options and the component-list world of the sweep):
the empty string is the empty root, otherwise the slash-separated parts. -/
def splitRoot (s : String) : Path :=
  if s = "" then [] else s.splitOn "/"

/-- Model of the `WithSubRoot` option: the stored sub-root is the
normalized path. -/
def WithSubRoot (root : String) (wd : Watcher) : Watcher :=
  { wd with subRoot := splitRoot (normalizePath root) }

/-! Cancellation model: `sweepC` is the same sweep with a cancellation
budget threaded through it.  The budget counts the context checkpoints
(the `ctx.Err()` poll at the top of each visit and the `select` guarding
each channel send) that pass before the context becomes cancelled; once
it reaches zero every checkpoint observes the cancellation. -/

/-- Result of a budgeted `sweepDeleted`. -/
structure EvB where
  events : List Event
  budget : Nat
  err : Option Err

mutual

/-- Budgeted `sweepDeleted`. -/
def sweepDeletedC (wd : Watcher) (p : Path) : DirCache → Nat → EvB
  | .mk entries children, b => sweepDeletedEntriesC wd p entries children b
termination_by c _ => sizeOf c
decreasing_by all_goals simp_wf

/-- Budgeted loop of `sweepDeleted` over the cached entries. -/
def sweepDeletedEntriesC (wd : Watcher) (p : Path) :
    List (String × Entry) → List (String × DirCache) → Nat → EvB
  | [], _, b => ⟨[], b, none⟩
  | (n, pe) :: rest, children, b =>
    if pe.isDir then
      let r := sweepDeletedChildC wd (p ++ [n]) n children b
      match r.err with
      | some er => ⟨r.events, r.budget, some er⟩
      | none =>
        let rr := sweepDeletedEntriesC wd p rest children r.budget
        ⟨r.events ++ rr.events, rr.budget, rr.err⟩
    else if wd.eventsMask.land FileRemoved ≠ 0 then
      match b with
      | 0 => ⟨[], 0, some .canceled⟩
      | b' + 1 =>
        let rr := sweepDeletedEntriesC wd p rest children b'
        ⟨⟨FileRemoved, prependSubRoot wd (p ++ [n])⟩ :: rr.events, rr.budget,
          rr.err⟩
    else sweepDeletedEntriesC wd p rest children b
termination_by es ch _ => sizeOf es + sizeOf ch
decreasing_by all_goals simp_wf

/-- Budgeted child lookup of `sweepDeleted`. -/
def sweepDeletedChildC (wd : Watcher) (p : Path) (n : String) :
    List (String × DirCache) → Nat → EvB
  | [], b => ⟨[], b, none⟩
  | (m, c) :: rest, b =>
    if m = n then sweepDeletedC wd p c b else sweepDeletedChildC wd p n rest b
termination_by ch _ => sizeOf ch
decreasing_by all_goals simp_wf <;> omega

end

/-- Result of a budgeted added-detection loop. -/
structure AddResC where
  kept : List (String × Entry)
  events : List Event
  budget : Nat
  err : Option Err

/-- Budgeted added-detection loop. -/
def addedPassC (wd : Watcher) (now : Int) (p : Path)
    (cacheEntries : List (String × Entry)) :
    List (String × Entry) → Nat → AddResC
  | [], b => ⟨[], [], b, none⟩
  | (n, e) :: rest, b =>
    if e.isDir then
      let r := addedPassC wd now p cacheEntries rest b
      ⟨(n, e) :: r.kept, r.events, r.budget, r.err⟩
    else if (lookupKey n cacheEntries).isSome then
      let r := addedPassC wd now p cacheEntries rest b
      ⟨(n, e) :: r.kept, r.events, r.budget, r.err⟩
    else
      match filterOf wd (prependSubRoot wd (p ++ [n])) with
      | .error er => ⟨[], [], b, some er⟩
      | .ok false => addedPassC wd now p cacheEntries rest b
      | .ok true =>
        if 0 < wd.writeStabilityThreshold ∧
            e.modTime + wd.writeStabilityThreshold > now then
          addedPassC wd now p cacheEntries rest b
        else
          if wd.eventsMask.land FileAdded ≠ 0 then
            match b with
            | 0 => ⟨[], [], 0, some .canceled⟩
            | b' + 1 =>
              let r := addedPassC wd now p cacheEntries rest b'
              ⟨(n, e) :: r.kept,
                ⟨FileAdded, prependSubRoot wd (p ++ [n])⟩ :: r.events,
                r.budget, r.err⟩
          else
            let r := addedPassC wd now p cacheEntries rest b
            ⟨(n, e) :: r.kept, r.events, r.budget, r.err⟩

/-- Result of a budgeted removed-detection loop. -/
structure RemResC where
  children : List (String × DirCache)
  events : List Event
  budget : Nat
  err : Option Err

/-- Budgeted removed-detection loop. -/
def removedPassC (wd : Watcher) (p : Path) (kept : List (String × Entry)) :
    List (String × Entry) → List (String × DirCache) → Nat → RemResC
  | [], children, b => ⟨children, [], b, none⟩
  | (n, pe) :: rest, children, b =>
    if (lookupKey n kept).isSome then removedPassC wd p kept rest children b
    else if pe.isDir then
      let r :=
        match lookupKey n children with
        | some c => sweepDeletedC wd (p ++ [n]) c b
        | none => ⟨[], b, none⟩
      match r.err with
      | some er => ⟨children, r.events, r.budget, some er⟩
      | none =>
        let rr := removedPassC wd p kept rest (eraseKey n children) r.budget
        ⟨rr.children, r.events ++ rr.events, rr.budget, rr.err⟩
    else if wd.eventsMask.land FileRemoved ≠ 0 then
      match b with
      | 0 => ⟨children, [], 0, some .canceled⟩
      | b' + 1 =>
        let rr := removedPassC wd p kept rest children b'
        ⟨rr.children, ⟨FileRemoved, prependSubRoot wd (p ++ [n])⟩ :: rr.events,
          rr.budget, rr.err⟩
    else removedPassC wd p kept rest children b

/-- Result of a budgeted child fan-out. -/
structure ChildResC where
  children : List (String × DirCache)
  events : List Event
  budget : Nat
  err : Option Err

/-- Result of a budgeted sweep. -/
structure SweepOutC where
  cache : DirCache
  events : List Event
  budget : Nat
  err : Option Err

/-- Budgeted child fan-out. -/
def sweepChildrenC (recur : Path → DirCache → Nat → SweepOutC) (p : Path) :
    List (String × Entry) → List (String × DirCache) → Nat → ChildResC
  | [], ch, b => ⟨ch, [], b, none⟩
  | (n, e) :: rest, ch, b =>
    if e.isDir then
      match lookupKey n ch with
      | none => sweepChildrenC recur p rest ch b
      | some c =>
        let r := recur (p ++ [n]) c b
        let ch' := insertKey n r.cache ch
        match r.err with
        | some er => ⟨ch', r.events, r.budget, some er⟩
        | none =>
          let rr := sweepChildrenC recur p rest ch' r.budget
          ⟨rr.children, r.events ++ rr.events, rr.budget, rr.err⟩
    else sweepChildrenC recur p rest ch b

/-- The budgeted recursive sweep: the `ctx.Err()` poll at the top of each
visit and the `select` guarding each send are checkpoints of the budget. -/
def sweepC (wd : Watcher) (now : Int) (fsys : FSNode) :
    Nat → Path → DirCache → Nat → SweepOutC
  | fuel, p, cache, b =>
    match b with
    | 0 => ⟨cache, [], 0, some .canceled⟩
    | b0 + 1 =>
      match dirOf wd (prependSubRoot wd p) with
      | .error er => ⟨cache, [], b0, some er⟩
      | .ok false => ⟨cache, [], b0, none⟩
      | .ok true =>
        match fuel with
        | 0 => ⟨cache, [], b0, none⟩
        | fuel' + 1 =>
          match readDir fsys p with
          | none => ⟨cache, [], b0, some (.notDir p)⟩
          | some listing =>
            match filterEntries wd p listing with
            | .error er => ⟨cache, [], b0, some er⟩
            | .ok l2 =>
              let a := addedPassC wd now p cache.entries l2 b0
              match a.err with
              | some er => ⟨cache, a.events, a.budget, some er⟩
              | none =>
                let r :=
                  removedPassC wd p a.kept cache.entries cache.children a.budget
                match r.err with
                | some er =>
                  ⟨.mk cache.entries r.children, a.events ++ r.events,
                    r.budget, some er⟩
                | none =>
                  let ch2 := ensureChildren a.kept r.children
                  let c := sweepChildrenC
                    (fun q cc bb => sweepC wd now fsys fuel' q cc bb)
                    p a.kept ch2 r.budget
                  ⟨.mk a.kept c.children, a.events ++ r.events ++ c.events,
                    c.budget, c.err⟩

/-- The budgeted public `Sweep`. -/
def SweepC (wd : Watcher) (now : Int) (fsys : FSNode) (cache : DirCache)
    (b : Nat) : SweepOutC :=
  match getSweepFS wd fsys with
  | .error er => ⟨cache, [], b, some er⟩
  | .ok sub => sweepC wd now sub wd.maxDepth [] cache b

/-! Association-list lemmas. -/

theorem DirCache.entries_mk {e : List (String × Entry)}
    {c : List (String × DirCache)} : (DirCache.mk e c).entries = e := rfl

theorem DirCache.children_mk {e : List (String × Entry)}
    {c : List (String × DirCache)} : (DirCache.mk e c).children = c := rfl

theorem lookupKey_nil {n : String} : lookupKey n ([] : List (String × α)) = none := rfl

theorem lookupKey_cons {n m : String} {v : α} {l : List (String × α)} :
    lookupKey n ((m, v) :: l) = if m = n then some v else lookupKey n l := rfl

theorem lookupKey_isSome_of_mem {n : String} {v : α} {l : List (String × α)}
    (h : (n, v) ∈ l) : (lookupKey n l).isSome := by
  induction l with
  | nil => cases h
  | cons hd tl ih =>
    obtain ⟨m, w⟩ := hd
    rcases List.mem_cons.mp h with h1 | h1
    · cases h1; simp [lookupKey]
    · by_cases hm : m = n <;> simp [lookupKey, hm, ih h1]

theorem mem_of_lookupKey_eq_some {n : String} {v : α} {l : List (String × α)}
    (h : lookupKey n l = some v) : (n, v) ∈ l := by
  induction l with
  | nil => simp [lookupKey] at h
  | cons hd tl ih =>
    obtain ⟨m, w⟩ := hd
    by_cases hm : m = n
    · subst hm
      simp only [lookupKey, if_pos rfl] at h
      cases h; exact List.mem_cons_self _ _
    · simp only [lookupKey, if_neg hm] at h
      exact List.mem_cons_of_mem _ (ih h)

theorem lookupKey_eq_none_iff {n : String} {l : List (String × α)} :
    lookupKey n l = none ↔ n ∉ l.map Prod.fst := by
  induction l with
  | nil => simp [lookupKey]
  | cons hd tl ih =>
    obtain ⟨m, w⟩ := hd
    by_cases hm : m = n
    · subst hm; simp [lookupKey]
    · simp [lookupKey, hm, ih, Ne.symm hm]

theorem lookupKey_eq_some_of_mem_nodup {n : String} {v : α}
    {l : List (String × α)} (hn : keysNodup l) (h : (n, v) ∈ l) :
    lookupKey n l = some v := by
  induction l with
  | nil => cases h
  | cons hd tl ih =>
    obtain ⟨m, w⟩ := hd
    have hn' : keysNodup tl := (List.nodup_cons.mp hn).2
    rcases List.mem_cons.mp h with h1 | h1
    · cases h1; simp [lookupKey]
    · have hm : m ≠ n := by
        intro he
        subst he
        exact (List.nodup_cons.mp hn).1
          (List.mem_map.mpr ⟨(m, v), h1, rfl⟩)
      simp [lookupKey, hm, ih hn' h1]

theorem lookupKey_insertKey_self {n : String} {v : α} {l : List (String × α)} :
    lookupKey n (insertKey n v l) = some v := by
  induction l with
  | nil => simp [insertKey, lookupKey]
  | cons hd tl ih =>
    obtain ⟨m, w⟩ := hd
    by_cases hm : m = n <;> simp [insertKey, lookupKey, hm, ih]

theorem lookupKey_insertKey_ne {n m : String} {v : α} {l : List (String × α)}
    (h : m ≠ n) : lookupKey n (insertKey m v l) = lookupKey n l := by
  induction l with
  | nil => simp [insertKey, lookupKey, h]
  | cons hd tl ih =>
    obtain ⟨k, w⟩ := hd
    by_cases hk : k = m
    · subst hk; simp [insertKey, lookupKey, h]
    · by_cases hkn : k = n <;>
        simp [insertKey, lookupKey, hk, hkn, Ne.symm h, ih]

theorem insertKey_eq_self_of_lookupKey {n : String} {v : α}
    {l : List (String × α)} (h : lookupKey n l = some v) :
    insertKey n v l = l := by
  induction l with
  | nil => simp [lookupKey] at h
  | cons hd tl ih =>
    obtain ⟨m, w⟩ := hd
    by_cases hm : m = n
    · subst hm
      simp only [lookupKey, if_pos rfl] at h
      cases h; simp [insertKey]
    · simp only [lookupKey, if_neg hm] at h
      simp [insertKey, hm, ih h]

theorem lookupKey_eraseKey_self {n : String} {l : List (String × α)} :
    lookupKey n (eraseKey n l) = none := by
  induction l with
  | nil => simp [eraseKey, lookupKey]
  | cons hd tl ih =>
    obtain ⟨m, w⟩ := hd
    by_cases hm : m = n <;> simp [eraseKey, lookupKey, hm, ih]

theorem lookupKey_eraseKey_ne {n m : String} {l : List (String × α)}
    (h : m ≠ n) : lookupKey n (eraseKey m l) = lookupKey n l := by
  induction l with
  | nil => simp [eraseKey]
  | cons hd tl ih =>
    obtain ⟨k, w⟩ := hd
    by_cases hk : k = m
    · subst hk; simp [eraseKey, lookupKey, h, ih]
    · by_cases hkn : k = n <;>
        simp [eraseKey, lookupKey, hk, hkn, Ne.symm h, ih]

theorem keysNodup_sublist {l l' : List (String × α)} (hs : List.Sublist l' l)
    (hn : keysNodup l) : keysNodup l' :=
  List.Nodup.sublist (List.Sublist.map Prod.fst hs) hn

theorem keysNodup_filter {l : List (String × α)} (q : String × α → Bool)
    (hn : keysNodup l) : keysNodup (l.filter q) :=
  keysNodup_sublist (List.filter_sublist l) hn

/-! Lemmas about `prependSubRoot` and path shapes. -/

theorem prependSubRoot_append {wd : Watcher} {p q : Path} :
    prependSubRoot wd (p ++ q) = prependSubRoot wd p ++ q := by
  unfold prependSubRoot
  by_cases h : wd.subRoot = [] <;> simp [h]

theorem prependSubRoot_inj {wd : Watcher} {p q : Path}
    (h : prependSubRoot wd p = prependSubRoot wd q) : p = q := by
  unfold prependSubRoot at h
  by_cases hs : wd.subRoot = [] <;> simp [hs] at h <;> exact h

theorem prependSubRoot_length {wd : Watcher} {p : Path} :
    (prependSubRoot wd p).length = wd.subRoot.length * (if wd.subRoot = [] then 0 else 1) + p.length := by
  unfold prependSubRoot
  by_cases h : wd.subRoot = [] <;> simp [h]

/-! Lemmas about the file-system model. -/

theorem fsFind_append {fsys : FSNode} {p q : Path} :
    fsFind fsys (p ++ q) = (fsFind fsys p).bind (fun c => fsFind c q) := by
  induction p generalizing fsys with
  | nil => simp [fsFind]
  | cons n rest ih =>
    cases fsys with
    | file t => simp [fsFind]
    | dir es =>
      simp only [List.cons_append, fsFind]
      cases lookupKey n es with
      | none => simp
      | some c => simpa using ih

theorem FSNode.WF.fsFind {fsys c : FSNode} (hwf : fsys.WF) {p : Path}
    (h : fsFind fsys p = some c) : c.WF := by
  induction p generalizing fsys with
  | nil =>
    have he : fsys = c := by simpa [Watchdir.fsFind] using h
    subst he; exact hwf
  | cons n rest ih =>
    cases fsys with
    | file t => simp [Watchdir.fsFind] at h
    | dir es =>
      simp only [Watchdir.fsFind] at h
      cases hl : lookupKey n es with
      | none => rw [hl] at h; cases h
      | some c0 =>
        rw [hl] at h
        cases hwf with
        | dir es hn hc =>
          exact ih (hc n c0 (mem_of_lookupKey_eq_some hl)) h

theorem readDir_keysNodup {fsys : FSNode} {p : Path}
    {l : List (String × Entry)} (hwf : fsys.WF) (h : readDir fsys p = some l) :
    keysNodup l := by
  unfold readDir at h
  cases hf : fsFind fsys p with
  | none => rw [hf] at h; cases h
  | some node =>
    rw [hf] at h
    cases node with
    | file t => cases h
    | dir es =>
      cases h
      have := hwf.fsFind hf
      cases this with
      | dir es hn hc =>
        unfold keysNodup at hn ⊢
        have hm : (es.map fun pr => (pr.1, entryOf pr.2)).map Prod.fst =
            es.map Prod.fst := by
          simp
        rw [hm]; exact hn

theorem readDir_child {fsys : FSNode} {p : Path} {l : List (String × Entry)}
    {n : String} {e : Entry} (hwf : fsys.WF) (h : readDir fsys p = some l)
    (hm : (n, e) ∈ l) : ∃ c, fsFind fsys (p ++ [n]) = some c ∧ e = entryOf c := by
  unfold readDir at h
  cases hf : fsFind fsys p with
  | none => rw [hf] at h; cases h
  | some node =>
    rw [hf] at h
    cases node with
    | file t => cases h
    | dir es =>
      cases h
      obtain ⟨⟨m, c⟩, hmem0, heq⟩ := List.mem_map.mp hm
      obtain ⟨h1, h2⟩ : m = n ∧ entryOf c = e := by simpa using heq
      have hmem : (n, c) ∈ es := h1 ▸ hmem0
      cases hwf.fsFind hf with
      | dir es hn hc =>
        refine ⟨c, ?_, h2.symm⟩
        rw [fsFind_append, hf]
        show Watchdir.fsFind (FSNode.dir es) [n] = some c
        have hl : lookupKey n es = some c :=
          lookupKey_eq_some_of_mem_nodup hn hmem
        simp [Watchdir.fsFind, hl]

theorem readDir_child_dir {fsys : FSNode} {p : Path} {l : List (String × Entry)}
    {n : String} {e : Entry} (hwf : fsys.WF) (h : readDir fsys p = some l)
    (hm : (n, e) ∈ l) (hd : e.isDir = true) :
    ∃ es', fsFind fsys (p ++ [n]) = some (.dir es') := by
  obtain ⟨c, hf, he⟩ := readDir_child hwf h hm
  cases c with
  | file t => rw [he] at hd; simp [entryOf] at hd
  | dir es' => exact ⟨es', hf⟩

/-! Lemmas about the file-filter deletion loop. -/

theorem filterEntries_of_none {wd : Watcher} {p : Path}
    {l : List (String × Entry)} (h : wd.fileFilter = none) :
    filterEntries wd p l = .ok l := by
  simp [filterEntries, h]

theorem filterEntries_eq_filter {wd : Watcher} {p : Path}
    {l l2 : List (String × Entry)} (h : filterEntries wd p l = .ok l2) :
    l2 = l.filter (filterKeepB wd p) := by
  unfold filterEntries at h
  cases hff : wd.fileFilter with
  | none =>
    rw [hff] at h
    cases h
    have : ∀ pr ∈ l, filterKeepB wd p pr = true := by
      intro pr _
      simp [filterKeepB, filterOf, hff]
    exact (List.filter_eq_self.mpr this).symm
  | some f =>
    rw [hff] at h
    induction l generalizing l2 with
    | nil =>
      simp only [filterPass] at h
      cases h; rfl
    | cons hd tl ih =>
      obtain ⟨n, e⟩ := hd
      by_cases hdir : e.isDir
      · simp only [filterPass, if_pos hdir] at h
        cases htl : filterPass f wd p tl with
        | error er => rw [htl] at h; cases h
        | ok lr =>
          rw [htl] at h
          cases h
          simp [List.filter_cons, filterKeepB, hdir, ih htl]
      · simp only [filterPass, if_neg hdir] at h
        have hfo : filterOf wd (prependSubRoot wd (p ++ [n])) =
            f (prependSubRoot wd (p ++ [n])) := by
          simp [filterOf, hff]
        cases hf1 : f (prependSubRoot wd (p ++ [n])) with
        | error er => rw [hf1] at h; cases h
        | ok b =>
          rw [hf1] at h
          cases b
          · simp [List.filter_cons, filterKeepB, hdir, hfo, hf1, ih h]
          · cases htl : filterPass f wd p tl with
            | error er => rw [htl] at h; cases h
            | ok lr =>
              rw [htl] at h
              cases h
              simp [List.filter_cons, filterKeepB, hdir, hfo, hf1, ih htl]

theorem filterEntries_sublist {wd : Watcher} {p : Path}
    {l l2 : List (String × Entry)} (h : filterEntries wd p l = .ok l2) :
    List.Sublist l2 l := by
  rw [filterEntries_eq_filter h]
  exact List.filter_sublist l

theorem filterOf_ok_of_mem {wd : Watcher} {p : Path}
    {l l2 : List (String × Entry)} {n : String} {e : Entry}
    (h : filterEntries wd p l = .ok l2) (hm : (n, e) ∈ l2)
    (hd : e.isDir = false) :
    filterOf wd (prependSubRoot wd (p ++ [n])) = .ok true := by
  rw [filterEntries_eq_filter h] at hm
  have := (List.mem_filter.mp hm).2
  simp only [filterKeepB, hd, Bool.false_or] at this
  cases hfo : filterOf wd (prependSubRoot wd (p ++ [n])) with
  | error er => rw [hfo] at this; simp at this
  | ok b =>
    cases b
    · rw [hfo] at this; simp at this
    · rfl

/-! Lemmas about the added-detection loop. -/

theorem addedPass_eq {wd : Watcher} {now : Int} {p : Path}
    {ce l : List (String × Entry)}
    (hF : ∀ n e, (n, e) ∈ l → e.isDir = false → (lookupKey n ce) = none →
      filterOf wd (prependSubRoot wd (p ++ [n])) = .ok true) :
    addedPass wd now p ce l =
      ⟨l.filter (keepB wd now ce),
        if wd.eventsMask.land FileAdded ≠ 0 then
          (l.filter (addB wd now ce)).map
            (fun pr => ⟨FileAdded, prependSubRoot wd (p ++ [pr.1])⟩)
        else [],
        none⟩ := by
  induction l with
  | nil => simp [addedPass]
  | cons hd tl ih =>
    obtain ⟨n, e⟩ := hd
    have hF' : ∀ n e, (n, e) ∈ tl → e.isDir = false → (lookupKey n ce) = none →
        filterOf wd (prependSubRoot wd (p ++ [n])) = .ok true := by
      intro n' e' hm; exact hF n' e' (List.mem_cons_of_mem _ hm)
    by_cases hdir : e.isDir
    · simp [addedPass, hdir, ih hF', List.filter_cons, keepB, addB]
    · have hdir' : e.isDir = false := by simpa using hdir
      cases hce : lookupKey n ce with
      | some v =>
        simp [addedPass, hdir, hce, ih hF', List.filter_cons, keepB, addB]
      | none =>
        have hfo := hF n e (List.mem_cons_self _ _) hdir' hce
        by_cases hst : 0 < wd.writeStabilityThreshold ∧
            e.modTime + wd.writeStabilityThreshold > now
        · have hu : unstableB wd now e = true := by
            simp [unstableB, hst]
          simp [addedPass, hdir, hce, hfo, hst, ih hF', List.filter_cons,
            keepB, addB, hu]
        · have hu : unstableB wd now e = false := by
            simp only [unstableB, decide_eq_false_iff_not]
            exact hst
          by_cases hmask : wd.eventsMask.land FileAdded ≠ 0
          · simp [addedPass, hdir, hce, hfo, hst, ih hF', List.filter_cons,
              keepB, addB, hu, hmask]
          · simp [addedPass, hdir, hce, hfo, hst, ih hF', List.filter_cons,
              keepB, addB, hu, hmask]

theorem addedPass_events_shape {wd : Watcher} {now : Int} {p : Path}
    {ce l : List (String × Entry)} {x : Event}
    (hx : x ∈ (addedPass wd now p ce l).events) :
    x.typ = FileAdded ∧ ∃ n e, (n, e) ∈ l ∧ e.isDir = false ∧
      x.file = prependSubRoot wd (p ++ [n]) := by
  induction l with
  | nil => simp [addedPass] at hx
  | cons hd tl ih =>
    obtain ⟨n, e⟩ := hd
    by_cases hdir : e.isDir
    · simp only [addedPass, if_pos hdir] at hx
      obtain ⟨ht, n', e', hm, hd', hf⟩ := ih hx
      exact ⟨ht, n', e', List.mem_cons_of_mem _ hm, hd', hf⟩
    · simp only [addedPass, if_neg hdir] at hx
      by_cases hce : (lookupKey n ce).isSome
      · simp only [if_pos hce] at hx
        obtain ⟨ht, n', e', hm, hd', hf⟩ := ih hx
        exact ⟨ht, n', e', List.mem_cons_of_mem _ hm, hd', hf⟩
      · simp only [if_neg hce] at hx
        cases hfo : filterOf wd (prependSubRoot wd (p ++ [n])) with
        | error er => rw [hfo] at hx; simp at hx
        | ok b =>
          rw [hfo] at hx
          cases b
          · obtain ⟨ht, n', e', hm, hd', hf⟩ := ih hx
            exact ⟨ht, n', e', List.mem_cons_of_mem _ hm, hd', hf⟩
          · by_cases hst : 0 < wd.writeStabilityThreshold ∧
                e.modTime + wd.writeStabilityThreshold > now
            · simp only [if_pos hst] at hx
              obtain ⟨ht, n', e', hm, hd', hf⟩ := ih hx
              exact ⟨ht, n', e', List.mem_cons_of_mem _ hm, hd', hf⟩
            · simp only [if_neg hst] at hx
              simp only [List.mem_append] at hx
              rcases hx with hx | hx
              · by_cases hmask : wd.eventsMask.land FileAdded ≠ 0
                · rw [if_pos hmask] at hx
                  simp only [List.mem_singleton] at hx
                  subst hx
                  exact ⟨rfl, n, e, List.mem_cons_self _ _, by simpa using hdir,
                    rfl⟩
                · rw [if_neg hmask] at hx; cases hx
              · obtain ⟨ht, n', e', hm, hd', hf⟩ := ih hx
                exact ⟨ht, n', e', List.mem_cons_of_mem _ hm, hd', hf⟩

theorem addedPass_kept_sublist {wd : Watcher} {now : Int} {p : Path}
    {ce l : List (String × Entry)} :
    List.Sublist (addedPass wd now p ce l).kept l := by
  induction l with
  | nil => simp [addedPass]
  | cons hd tl ih =>
    obtain ⟨n, e⟩ := hd
    by_cases hdir : e.isDir
    · simpa [addedPass, hdir] using List.Sublist.cons₂ (n, e) ih
    · by_cases hce : (lookupKey n ce).isSome
      · simpa [addedPass, hdir, hce] using List.Sublist.cons₂ (n, e) ih
      · simp only [addedPass, if_neg hdir, if_neg hce]
        cases hfo : filterOf wd (prependSubRoot wd (p ++ [n])) with
        | error er => simp
        | ok b =>
          cases b
          · exact List.Sublist.cons _ ih
          · by_cases hst : 0 < wd.writeStabilityThreshold ∧
                e.modTime + wd.writeStabilityThreshold > now
            · simp only [if_pos hst]
              exact List.Sublist.cons _ ih
            · simp only [if_neg hst]
              exact List.Sublist.cons₂ (n, e) ih

/-! Lemmas about `sweepDeleted` and `cachedFilePaths`. -/

theorem sizeOf_lookupKey_lt {n : String} {ch : List (String × DirCache)}
    {c : DirCache} (h : lookupKey n ch = some c) : sizeOf c < sizeOf ch := by
  induction ch with
  | nil => simp [lookupKey] at h
  | cons hd tl ih =>
    obtain ⟨m, w⟩ := hd
    by_cases hm : m = n
    · simp only [lookupKey, if_pos hm] at h
      cases h
      simp only [List.cons.sizeOf_spec, Prod.mk.sizeOf_spec]
      omega
    · simp only [lookupKey, if_neg hm] at h
      have := ih h
      simp only [List.cons.sizeOf_spec, Prod.mk.sizeOf_spec]
      omega

theorem sweepDeletedChild_eq {wd : Watcher} {p : Path} {n : String}
    {ch : List (String × DirCache)} :
    sweepDeletedChild wd p n ch =
      (match lookupKey n ch with
       | some c => sweepDeleted wd p c
       | none => []) := by
  induction ch with
  | nil => simp [sweepDeletedChild, lookupKey]
  | cons hd tl ih =>
    obtain ⟨m, c⟩ := hd
    by_cases hm : m = n <;> simp [sweepDeletedChild, lookupKey, hm, ih]

theorem cachedFilePathsChild_eq {p : Path} {n : String}
    {ch : List (String × DirCache)} :
    cachedFilePathsChild p n ch =
      (match lookupKey n ch with
       | some c => cachedFilePaths p c
       | none => []) := by
  induction ch with
  | nil => simp [cachedFilePathsChild, lookupKey]
  | cons hd tl ih =>
    obtain ⟨m, c⟩ := hd
    by_cases hm : m = n <;> simp [cachedFilePathsChild, lookupKey, hm, ih]

theorem sweepDeleted_shape_aux (wd : Watcher) :
    ∀ (k : Nat) (c : DirCache), sizeOf c ≤ k → ∀ (p : Path) (x : Event),
      x ∈ sweepDeleted wd p c →
      x.typ = FileRemoved ∧ ∃ n q, x.file = prependSubRoot wd (p ++ n :: q) := by
  intro k
  induction k with
  | zero =>
    intro c hc
    obtain ⟨es, ch⟩ := c
    simp only [DirCache.mk.sizeOf_spec] at hc
    omega
  | succ k ih =>
    intro c hc p x hx
    obtain ⟨es, ch⟩ := c
    have hch : sizeOf ch ≤ k := by
      simp only [DirCache.mk.sizeOf_spec] at hc
      omega
    clear hc
    simp only [sweepDeleted] at hx
    induction es with
    | nil => simp [sweepDeletedEntries] at hx
    | cons hd tl ihes =>
      obtain ⟨n, pe⟩ := hd
      simp only [sweepDeletedEntries, List.mem_append] at hx
      rcases hx with hx | hx
      · by_cases hdir : pe.isDir
        · rw [if_pos hdir, sweepDeletedChild_eq] at hx
          cases hl : lookupKey n ch with
          | none => rw [hl] at hx; cases hx
          | some c' =>
            rw [hl] at hx
            have hsz : sizeOf c' ≤ k :=
              Nat.le_of_lt_succ (Nat.lt_of_lt_of_le
                (Nat.lt_of_lt_of_le (sizeOf_lookupKey_lt hl) hch)
                (Nat.le_succ k))
            obtain ⟨ht, n', q', hf⟩ := ih c' hsz (p ++ [n]) x hx
            refine ⟨ht, n, n' :: q', ?_⟩
            rw [hf, List.append_assoc]
            rfl
        · rw [if_neg hdir] at hx
          by_cases hmask : wd.eventsMask.land FileRemoved ≠ 0
          · rw [if_pos hmask] at hx
            simp only [List.mem_singleton] at hx
            subst hx
            exact ⟨rfl, n, [], rfl⟩
          · rw [if_neg hmask] at hx; cases hx
      · exact ihes hx

theorem sweepDeleted_shape {wd : Watcher} {c : DirCache} {p : Path} {x : Event}
    (hx : x ∈ sweepDeleted wd p c) :
    x.typ = FileRemoved ∧ ∃ n q, x.file = prependSubRoot wd (p ++ n :: q) :=
  sweepDeleted_shape_aux wd (sizeOf c) c le_rfl p x hx

theorem sweepDeleted_eq_cachedFilePaths_aux (wd : Watcher)
    (hmask : wd.eventsMask.land FileRemoved ≠ 0) :
    ∀ (k : Nat) (c : DirCache), sizeOf c ≤ k → ∀ (p : Path),
      sweepDeleted wd p c =
        (cachedFilePaths p c).map
          (fun q => ⟨FileRemoved, prependSubRoot wd q⟩) := by
  intro k
  induction k with
  | zero =>
    intro c hc
    obtain ⟨es, ch⟩ := c
    simp only [DirCache.mk.sizeOf_spec] at hc
    omega
  | succ k ih =>
    intro c hc p
    obtain ⟨es, ch⟩ := c
    have hch : sizeOf ch ≤ k := by
      simp only [DirCache.mk.sizeOf_spec] at hc
      omega
    clear hc
    simp only [sweepDeleted, cachedFilePaths]
    induction es with
    | nil => simp [sweepDeletedEntries, cachedFilePathsEntries]
    | cons hd tl ihes =>
      obtain ⟨n, pe⟩ := hd
      simp only [sweepDeletedEntries, cachedFilePathsEntries, List.map_append]
      rw [ihes]
      by_cases hdir : pe.isDir
      · rw [if_pos hdir, if_pos hdir, sweepDeletedChild_eq,
          cachedFilePathsChild_eq]
        cases hl : lookupKey n ch with
        | none => simp
        | some c' =>
          have hsz : sizeOf c' ≤ k :=
            Nat.le_of_lt_succ (Nat.lt_of_lt_of_le
              (Nat.lt_of_lt_of_le (sizeOf_lookupKey_lt hl) hch)
              (Nat.le_succ k))
          simp [ih c' hsz (p ++ [n])]
      · rw [if_neg hdir, if_neg hdir, if_pos hmask]
        simp

theorem sweepDeleted_eq_cachedFilePaths {wd : Watcher}
    (hmask : wd.eventsMask.land FileRemoved ≠ 0) {c : DirCache} {p : Path} :
    sweepDeleted wd p c =
      (cachedFilePaths p c).map (fun q => ⟨FileRemoved, prependSubRoot wd q⟩) :=
  sweepDeleted_eq_cachedFilePaths_aux wd hmask (sizeOf c) c le_rfl p

/-! Lemmas about the removed-detection loop. -/

theorem removedPass_skip_all {wd : Watcher} {p : Path}
    {kept ces : List (String × Entry)} {ch : List (String × DirCache)}
    (h : ∀ n pe, (n, pe) ∈ ces → (lookupKey n kept).isSome) :
    removedPass wd p kept ces ch = ⟨ch, []⟩ := by
  induction ces generalizing ch with
  | nil => simp [removedPass]
  | cons hd tl ih =>
    obtain ⟨n, pe⟩ := hd
    have hn := h n pe (List.mem_cons_self _ _)
    have h' : ∀ n pe, (n, pe) ∈ tl → (lookupKey n kept).isSome := by
      intro n' pe' hm; exact h n' pe' (List.mem_cons_of_mem _ hm)
    simp [removedPass, hn, ih h']

theorem removedPass_events_shape {wd : Watcher} {p : Path}
    {kept ces : List (String × Entry)} {ch : List (String × DirCache)}
    {x : Event} (hx : x ∈ (removedPass wd p kept ces ch).events) :
    x.typ = FileRemoved ∧ ∃ n pe, (n, pe) ∈ ces ∧ lookupKey n kept = none ∧
      ((pe.isDir = false ∧ x.file = prependSubRoot wd (p ++ [n])) ∨
        (pe.isDir = true ∧ ∃ m q, x.file = prependSubRoot wd (p ++ n :: m :: q))) := by
  induction ces generalizing ch with
  | nil => simp [removedPass] at hx
  | cons hd tl ih =>
    obtain ⟨n, pe⟩ := hd
    by_cases hk : (lookupKey n kept).isSome
    · rw [removedPass, if_pos hk] at hx
      obtain ⟨ht, n', pe', hm, hkn, hor⟩ := ih hx
      exact ⟨ht, n', pe', List.mem_cons_of_mem _ hm, hkn, hor⟩
    · have hkn : lookupKey n kept = none := by
        cases hl : lookupKey n kept
        · rfl
        · rw [hl] at hk; simp at hk
      by_cases hdir : pe.isDir
      · rw [removedPass, if_neg hk, if_pos hdir] at hx
        simp only [List.mem_append] at hx
        rcases hx with hx | hx
        · cases hl : lookupKey n ch with
          | none => rw [hl] at hx; cases hx
          | some c' =>
            rw [hl] at hx
            obtain ⟨ht, m, q, hf⟩ := sweepDeleted_shape hx
            refine ⟨ht, n, pe, List.mem_cons_self _ _, hkn, Or.inr ⟨hdir, m, q, ?_⟩⟩
            rw [hf, List.append_assoc]
            rfl
        · obtain ⟨ht, n', pe', hm, hkn', hor⟩ := ih hx
          exact ⟨ht, n', pe', List.mem_cons_of_mem _ hm, hkn', hor⟩
      · rw [removedPass, if_neg hk, if_neg hdir] at hx
        simp only [List.mem_append] at hx
        rcases hx with hx | hx
        · by_cases hmask : wd.eventsMask.land FileRemoved ≠ 0
          · rw [if_pos hmask] at hx
            simp only [List.mem_singleton] at hx
            subst hx
            exact ⟨rfl, n, pe, List.mem_cons_self _ _, hkn,
              Or.inl ⟨by simpa using hdir, rfl⟩⟩
          · rw [if_neg hmask] at hx; cases hx
        · obtain ⟨ht, n', pe', hm, hkn', hor⟩ := ih hx
          exact ⟨ht, n', pe', List.mem_cons_of_mem _ hm, hkn', hor⟩

theorem not_mem_keys_of_nodup_head {n : String} {pe : Entry}
    {tl : List (String × Entry)} (hn : keysNodup ((n, pe) :: tl)) :
    n ∉ tl.map Prod.fst :=
  (List.nodup_cons.mp hn).1

theorem head_eq_of_mem_nodup {n : String} {pe pe' : Entry}
    {tl : List (String × Entry)} (hn : keysNodup ((n, pe) :: tl))
    (hm : (n, pe') ∈ (n, pe) :: tl) : pe' = pe := by
  rcases List.mem_cons.mp hm with h | h
  · cases h; rfl
  · exact absurd (List.mem_map.mpr ⟨(n, pe'), h, rfl⟩)
      (not_mem_keys_of_nodup_head hn)

theorem mem_tail_key_ne_of_nodup {n n' : String} {pe pe' : Entry}
    {tl : List (String × Entry)} (hn : keysNodup ((n, pe) :: tl))
    (hm : (n', pe') ∈ (n, pe) :: tl) (hne : ¬((n', pe') = (n, pe) ∧ n' = n)) :
    (n', pe') ∈ tl ∧ n' ≠ n := by
  rcases List.mem_cons.mp hm with h | h
  · exact absurd ⟨h, congrArg Prod.fst h⟩ hne
  · refine ⟨h, ?_⟩
    intro he
    subst he
    exact (not_mem_keys_of_nodup_head hn) (List.mem_map.mpr ⟨(n', pe'), h, rfl⟩)

theorem name_eq_of_prepend_singleton {wd : Watcher} {p : Path} {n m : String}
    (h : prependSubRoot wd (p ++ [n]) = prependSubRoot wd (p ++ [m])) :
    n = m := by
  have h1 : p ++ [n] = p ++ [m] := prependSubRoot_inj h
  have h2 : [n] = [m] := List.append_cancel_left h1
  simpa using h2

theorem prepend_deep_ne_singleton {wd : Watcher} {p : Path}
    {n n' m : String} {q : Path}
    (h : prependSubRoot wd (p ++ n :: m :: q) = prependSubRoot wd (p ++ [n'])) :
    False := by
  have h1 : p ++ n :: m :: q = p ++ [n'] := prependSubRoot_inj h
  have h2 : n :: m :: q = [n'] := List.append_cancel_left h1
  simpa using congrArg List.length h2

theorem prepend_below_ne_singleton {wd : Watcher} {p : Path}
    {n n' m : String} {q : Path}
    (h : prependSubRoot wd ((p ++ [n]) ++ m :: q) =
      prependSubRoot wd (p ++ [n'])) : False := by
  have h1 := prependSubRoot_inj h
  have hlen := congrArg List.length h1
  simp only [List.length_append, List.length_cons, List.length_singleton]
    at hlen
  omega

theorem removedPass_count_file {wd : Watcher} {p : Path}
    {kept ces : List (String × Entry)} {ch : List (String × DirCache)}
    {n0 : String} {pe0 : Entry}
    (hnodup : keysNodup ces) (hmem : (n0, pe0) ∈ ces)
    (hdir : pe0.isDir = false) (hkept : lookupKey n0 kept = none)
    (hmask : wd.eventsMask.land FileRemoved ≠ 0) :
    ((removedPass wd p kept ces ch).events.count
      ⟨FileRemoved, prependSubRoot wd (p ++ [n0])⟩) = 1 := by
  induction ces generalizing ch with
  | nil => cases hmem
  | cons hd tl ih =>
    obtain ⟨n, pe⟩ := hd
    have hnodup' : keysNodup tl := (List.nodup_cons.mp hnodup).2
    by_cases hhead : n = n0
    · subst hhead
      have hpe : pe0 = pe := head_eq_of_mem_nodup hnodup hmem
      subst hpe
      have hk : ¬(lookupKey n kept).isSome = true := by rw [hkept]; simp
      have hd2 : ¬pe0.isDir = true := by rw [hdir]; simp
      rw [removedPass, if_neg hk, if_neg hd2, if_pos hmask]
      have hrest : ((removedPass wd p kept tl ch).events.count
          ⟨FileRemoved, prependSubRoot wd (p ++ [n])⟩) = 0 := by
        rw [List.count_eq_zero]
        intro hmemx
        obtain ⟨ht, n', pe', hm', hkn', hor⟩ := removedPass_events_shape hmemx
        have hne : n' ≠ n := by
          intro he
          subst he
          exact (not_mem_keys_of_nodup_head hnodup)
            (List.mem_map.mpr ⟨(n', pe'), hm', rfl⟩)
        rcases hor with ⟨_, hf⟩ | ⟨_, m, q, hf⟩
        · have hf' : prependSubRoot wd (p ++ [n]) =
              prependSubRoot wd (p ++ [n']) := hf
          exact hne (name_eq_of_prepend_singleton hf').symm
        · have hf' : prependSubRoot wd (p ++ [n]) =
              prependSubRoot wd (p ++ n' :: m :: q) := hf
          exact prepend_deep_ne_singleton hf'.symm
      simp [List.count_cons, hrest]
    · have hmem' : (n0, pe0) ∈ tl := by
        rcases List.mem_cons.mp hmem with h | h
        · cases h; exact absurd rfl hhead
        · exact h
      by_cases hk : (lookupKey n kept).isSome
      · rw [removedPass, if_pos hk]
        exact ih hnodup' hmem'
      · by_cases hd2 : pe.isDir
        · rw [removedPass, if_neg hk, if_pos hd2]
          simp only [List.count_append]
          have hzero : ((match lookupKey n ch with
               | some c => sweepDeleted wd (p ++ [n]) c
               | none => ([] : List Event)).count
              (⟨FileRemoved, prependSubRoot wd (p ++ [n0])⟩ : Event)) = 0 := by
            rw [List.count_eq_zero]
            intro hev
            cases hl : lookupKey n ch with
            | none => rw [hl] at hev; cases hev
            | some c' =>
              rw [hl] at hev
              obtain ⟨ht, m, q, hf⟩ := sweepDeleted_shape hev
              have hf' : prependSubRoot wd ((p ++ [n]) ++ m :: q) =
                  prependSubRoot wd (p ++ [n0]) := hf.symm
              exact prepend_below_ne_singleton hf'
          rw [hzero, ih hnodup' hmem']
        · rw [removedPass, if_neg hk, if_neg hd2, if_pos hmask]
          have hne2 : ¬ prependSubRoot wd (p ++ [n]) =
              prependSubRoot wd (p ++ [n0]) :=
            fun h => hhead (name_eq_of_prepend_singleton h)
          simp [List.count_cons, ih hnodup' hmem', hne2]

theorem removedPass_subset_dir {wd : Watcher} {p : Path}
    {kept ces : List (String × Entry)} {ch : List (String × DirCache)}
    {n0 : String} {pe0 : Entry} {cnode : DirCache}
    (hnodup : keysNodup ces) (hmem : (n0, pe0) ∈ ces)
    (hdir : pe0.isDir = true) (hkept : lookupKey n0 kept = none)
    (hch : lookupKey n0 ch = some cnode) :
    ∀ x ∈ sweepDeleted wd (p ++ [n0]) cnode,
      x ∈ (removedPass wd p kept ces ch).events := by
  induction ces generalizing ch with
  | nil => cases hmem
  | cons hd tl ih =>
    obtain ⟨n, pe⟩ := hd
    intro x hx
    have hnodup' : keysNodup tl := (List.nodup_cons.mp hnodup).2
    by_cases hhead : n = n0
    · subst hhead
      have hpe : pe0 = pe := head_eq_of_mem_nodup hnodup hmem
      subst hpe
      have hk : ¬(lookupKey n kept).isSome = true := by rw [hkept]; simp
      rw [removedPass, if_neg hk, if_pos hdir]
      simp only [List.mem_append]
      left
      rw [hch]
      exact hx
    · have hmem' : (n0, pe0) ∈ tl := by
        rcases List.mem_cons.mp hmem with h | h
        · cases h; exact absurd rfl hhead
        · exact h
      by_cases hk : (lookupKey n kept).isSome
      · rw [removedPass, if_pos hk]
        exact ih hnodup' hmem' hch x hx
      · by_cases hd2 : pe.isDir
        · rw [removedPass, if_neg hk, if_pos hd2]
          simp only [List.mem_append]
          right
          have hch' : lookupKey n0 (eraseKey n ch) = some cnode := by
            rw [lookupKey_eraseKey_ne hhead]
            exact hch
          exact ih hnodup' hmem' hch' x hx
        · rw [removedPass, if_neg hk, if_neg hd2]
          simp only [List.mem_append]
          right
          exact ih hnodup' hmem' hch x hx

theorem lookupKey_eraseKey_of_none {n m : String} {l : List (String × α)}
    (h : lookupKey m l = none) : lookupKey m (eraseKey n l) = none := by
  by_cases hm : n = m
  · subst hm; exact lookupKey_eraseKey_self
  · rw [lookupKey_eraseKey_ne hm]; exact h

theorem removedPass_children_none_mono {wd : Watcher} {p : Path}
    {kept ces : List (String × Entry)} {ch : List (String × DirCache)}
    {m : String} (h : lookupKey m ch = none) :
    lookupKey m (removedPass wd p kept ces ch).children = none := by
  induction ces generalizing ch with
  | nil => simpa [removedPass] using h
  | cons hd tl ih =>
    obtain ⟨n, pe⟩ := hd
    by_cases hk : (lookupKey n kept).isSome
    · rw [removedPass, if_pos hk]; exact ih h
    · by_cases hd2 : pe.isDir
      · rw [removedPass, if_neg hk, if_pos hd2]
        exact ih (lookupKey_eraseKey_of_none h)
      · rw [removedPass, if_neg hk, if_neg hd2]
        exact ih h

theorem removedPass_children_erased {wd : Watcher} {p : Path}
    {kept ces : List (String × Entry)} {ch : List (String × DirCache)}
    {n0 : String} {pe0 : Entry}
    (hnodup : keysNodup ces) (hmem : (n0, pe0) ∈ ces)
    (hdir : pe0.isDir = true) (hkept : lookupKey n0 kept = none) :
    lookupKey n0 (removedPass wd p kept ces ch).children = none := by
  induction ces generalizing ch with
  | nil => cases hmem
  | cons hd tl ih =>
    obtain ⟨n, pe⟩ := hd
    have hnodup' : keysNodup tl := (List.nodup_cons.mp hnodup).2
    by_cases hhead : n = n0
    · subst hhead
      have hpe : pe0 = pe := head_eq_of_mem_nodup hnodup hmem
      subst hpe
      have hk : ¬(lookupKey n kept).isSome = true := by rw [hkept]; simp
      rw [removedPass, if_neg hk, if_pos hdir]
      exact removedPass_children_none_mono lookupKey_eraseKey_self
    · have hmem' : (n0, pe0) ∈ tl := by
        rcases List.mem_cons.mp hmem with h | h
        · cases h; exact absurd rfl hhead
        · exact h
      by_cases hk : (lookupKey n kept).isSome
      · rw [removedPass, if_pos hk]; exact ih hnodup' hmem'
      · by_cases hd2 : pe.isDir
        · rw [removedPass, if_neg hk, if_pos hd2]; exact ih hnodup' hmem'
        · rw [removedPass, if_neg hk, if_neg hd2]; exact ih hnodup' hmem'

/-! Lemmas about the child-cache creation loop and the child fan-out. -/

theorem ensureChildren_lookup_not_mem {l : List (String × Entry)}
    {ch : List (String × DirCache)} {n : String} (h : n ∉ l.map Prod.fst) :
    lookupKey n (ensureChildren l ch) = lookupKey n ch := by
  induction l generalizing ch with
  | nil => simp [ensureChildren]
  | cons hd tl ih =>
    obtain ⟨m, e⟩ := hd
    have hm : m ≠ n := by
      intro he; subst he; exact h (by simp)
    have h' : n ∉ tl.map Prod.fst := fun hx => h (by simp [hx])
    by_cases hc : e.isDir && (lookupKey m ch).isNone
    · rw [ensureChildren, if_pos hc, ih h', lookupKey_insertKey_ne hm]
    · rw [ensureChildren, if_neg hc, ih h']

theorem ensureChildren_preserve_isSome {l : List (String × Entry)}
    {ch : List (String × DirCache)} {m : String}
    (h : (lookupKey m ch).isSome) :
    (lookupKey m (ensureChildren l ch)).isSome := by
  induction l generalizing ch with
  | nil => simpa [ensureChildren] using h
  | cons hd tl ih =>
    obtain ⟨n, e⟩ := hd
    by_cases hc : e.isDir && (lookupKey n ch).isNone
    · rw [ensureChildren, if_pos hc]
      apply ih
      by_cases hm : n = m
      · subst hm; rw [lookupKey_insertKey_self]; simp
      · rw [lookupKey_insertKey_ne hm]; exact h
    · rw [ensureChildren, if_neg hc]; exact ih h

theorem ensureChildren_isSome_of_dir {l : List (String × Entry)}
    {ch : List (String × DirCache)} {m : String} {e : Entry}
    (hm : (m, e) ∈ l) (hd : e.isDir = true) :
    (lookupKey m (ensureChildren l ch)).isSome := by
  induction l generalizing ch with
  | nil => cases hm
  | cons hd0 tl ih =>
    obtain ⟨n, e0⟩ := hd0
    rcases List.mem_cons.mp hm with h | h
    · obtain ⟨h1, h2⟩ : m = n ∧ e = e0 := by
        constructor <;> [exact congrArg Prod.fst h; exact congrArg Prod.snd h]
      subst h1
      subst h2
      by_cases hc : e.isDir && (lookupKey m ch).isNone
      · rw [ensureChildren, if_pos hc]
        exact ensureChildren_preserve_isSome
          (by rw [lookupKey_insertKey_self]; simp)
      · rw [ensureChildren, if_neg hc]
        have : (lookupKey m ch).isSome := by
          rw [hd] at hc
          simp only [Bool.true_and] at hc
          cases hl : lookupKey m ch
          · rw [hl] at hc; simp at hc
          · simp
        exact ensureChildren_preserve_isSome this
    · by_cases hc : e0.isDir && (lookupKey n ch).isNone
      · rw [ensureChildren, if_pos hc]; exact ih h
      · rw [ensureChildren, if_neg hc]; exact ih h

theorem ensureChildren_eq_self {l : List (String × Entry)}
    {ch : List (String × DirCache)}
    (h : ∀ n e, (n, e) ∈ l → e.isDir = true → (lookupKey n ch).isSome) :
    ensureChildren l ch = ch := by
  induction l with
  | nil => simp [ensureChildren]
  | cons hd tl ih =>
    obtain ⟨n, e⟩ := hd
    have hc : ¬(e.isDir && (lookupKey n ch).isNone) = true := by
      by_cases hdir : e.isDir = true
      · have := h n e (List.mem_cons_self _ _) hdir
        simp [hdir, Option.isNone_iff_eq_none]
        cases hl : lookupKey n ch
        · rw [hl] at this; simp at this
        · simp
      · simp [Bool.eq_false_iff.mpr hdir]
    rw [ensureChildren, if_neg hc]
    exact ih (fun n' e' hm' => h n' e' (List.mem_cons_of_mem _ hm'))

theorem sweepChildren_lookup_not_mem {recur : Path → DirCache → SweepOut}
    {p : Path} {l : List (String × Entry)} {ch : List (String × DirCache)}
    {n : String} (h : n ∉ l.map Prod.fst) :
    lookupKey n (sweepChildren recur p l ch).children = lookupKey n ch := by
  induction l generalizing ch with
  | nil => simp [sweepChildren]
  | cons hd tl ih =>
    obtain ⟨m, e⟩ := hd
    have hm : m ≠ n := by
      intro he; subst he; exact h (by simp)
    have h' : n ∉ tl.map Prod.fst := fun hx => h (by simp [hx])
    by_cases hdir : e.isDir
    · rw [sweepChildren, if_pos hdir]
      cases hl : lookupKey m ch with
      | none => exact ih h'
      | some c =>
        simp only
        cases hre : (recur (p ++ [m]) c).err with
        | some er =>
          simp only [hre]
          rw [lookupKey_insertKey_ne hm]
        | none =>
          simp only [hre]
          rw [ih h', lookupKey_insertKey_ne hm]
    · rw [sweepChildren, if_neg hdir]
      exact ih h'

theorem sweepChildren_preserve_isSome {recur : Path → DirCache → SweepOut}
    {p : Path} {l : List (String × Entry)} {ch : List (String × DirCache)}
    {n : String} (h : (lookupKey n ch).isSome) :
    (lookupKey n (sweepChildren recur p l ch).children).isSome := by
  induction l generalizing ch with
  | nil => simpa [sweepChildren] using h
  | cons hd tl ih =>
    obtain ⟨m, e⟩ := hd
    by_cases hdir : e.isDir
    · rw [sweepChildren, if_pos hdir]
      cases hl : lookupKey m ch with
      | none => exact ih h
      | some c =>
        simp only
        cases hre : (recur (p ++ [m]) c).err with
        | some er =>
          simp only [hre]
          by_cases hm : m = n
          · subst hm; rw [lookupKey_insertKey_self]; simp
          · rw [lookupKey_insertKey_ne hm]; exact h
        | none =>
          simp only [hre]
          apply ih
          by_cases hm : m = n
          · subst hm; rw [lookupKey_insertKey_self]; simp
          · rw [lookupKey_insertKey_ne hm]; exact h
    · rw [sweepChildren, if_neg hdir]
      exact ih h

theorem sweepChildren_events_shape {wd : Watcher}
    {recur : Path → DirCache → SweepOut} {p : Path}
    (hrec : ∀ q c x, x ∈ (recur q c).events →
      ∃ n' q', x.file = prependSubRoot wd (q ++ n' :: q')) :
    ∀ {l : List (String × Entry)} {ch : List (String × DirCache)} {x : Event},
      x ∈ (sweepChildren recur p l ch).events →
      ∃ m e n' s, (m, e) ∈ l ∧ e.isDir = true ∧
        x.file = prependSubRoot wd (p ++ m :: n' :: s) := by
  intro l
  induction l with
  | nil => intro ch x hx; simp [sweepChildren] at hx
  | cons hd tl ih =>
    obtain ⟨m, e⟩ := hd
    intro ch x hx
    by_cases hdir : e.isDir
    · rw [sweepChildren, if_pos hdir] at hx
      cases hl : lookupKey m ch with
      | none =>
        rw [hl] at hx
        obtain ⟨m', e', n', s, hm', hd', hf⟩ := ih hx
        exact ⟨m', e', n', s, List.mem_cons_of_mem _ hm', hd', hf⟩
      | some c =>
        rw [hl] at hx
        simp only at hx
        cases hre : (recur (p ++ [m]) c).err with
        | some er =>
          simp only [hre] at hx
          obtain ⟨n', q', hf⟩ := hrec _ _ _ hx
          refine ⟨m, e, n', q', List.mem_cons_self _ _, hdir, ?_⟩
          rw [hf, List.append_assoc]
          rfl
        | none =>
          simp only [hre, List.mem_append] at hx
          rcases hx with hx | hx
          · obtain ⟨n', q', hf⟩ := hrec _ _ _ hx
            refine ⟨m, e, n', q', List.mem_cons_self _ _, hdir, ?_⟩
            rw [hf, List.append_assoc]
            rfl
          · obtain ⟨m', e', n', s, hm', hd', hf⟩ := ih hx
            exact ⟨m', e', n', s, List.mem_cons_of_mem _ hm', hd', hf⟩
    · rw [sweepChildren, if_neg hdir] at hx
      obtain ⟨m', e', n', s, hm', hd', hf⟩ := ih hx
      exact ⟨m', e', n', s, List.mem_cons_of_mem _ hm', hd', hf⟩

theorem sweepChildren_err_none {recur : Path → DirCache → SweepOut} {p : Path}
    (hrec : ∀ q c, (recur q c).err = none) :
    ∀ {l : List (String × Entry)} {ch : List (String × DirCache)},
      (sweepChildren recur p l ch).err = none := by
  intro l
  induction l with
  | nil => intro ch; simp [sweepChildren]
  | cons hd tl ih =>
    obtain ⟨m, e⟩ := hd
    intro ch
    by_cases hdir : e.isDir
    · rw [sweepChildren, if_pos hdir]
      cases hl : lookupKey m ch with
      | none => exact ih
      | some c =>
        simp only
        cases hre : (recur (p ++ [m]) c).err with
        | some er => rw [hrec (p ++ [m]) c] at hre; cases hre
        | none => simp only [hre]; exact ih
    · rw [sweepChildren, if_neg hdir]
      exact ih

theorem sweepChildren_idem {recur : Path → DirCache → SweepOut} {p : Path}
    (hrec_idem : ∀ q c, (recur q c).err = none →
      recur q (recur q c).cache = ⟨(recur q c).cache, [], none⟩) :
    ∀ {l : List (String × Entry)} {ch : List (String × DirCache)},
      keysNodup l → (sweepChildren recur p l ch).err = none →
      sweepChildren recur p l (sweepChildren recur p l ch).children =
        ⟨(sweepChildren recur p l ch).children, [], none⟩ := by
  intro l
  induction l with
  | nil => intro ch _ _; simp [sweepChildren]
  | cons hd tl ih =>
    obtain ⟨m, e⟩ := hd
    intro ch hnodup herr
    have hnodup' : keysNodup tl := (List.nodup_cons.mp hnodup).2
    have hnm : m ∉ tl.map Prod.fst := (List.nodup_cons.mp hnodup).1
    by_cases hdir : e.isDir
    · cases hl : lookupKey m ch with
      | none =>
        have hfirst : sweepChildren recur p ((m, e) :: tl) ch =
            sweepChildren recur p tl ch := by
          rw [sweepChildren, if_pos hdir, hl]
        rw [hfirst] at herr ⊢
        have hl2 : lookupKey m (sweepChildren recur p tl ch).children = none := by
          rw [sweepChildren_lookup_not_mem hnm]
          exact hl
        rw [sweepChildren, if_pos hdir, hl2]
        exact ih hnodup' herr
      | some c =>
        rcases hres : recur (p ++ [m]) c with ⟨cc, evn, errn⟩
        have hfirst : sweepChildren recur p ((m, e) :: tl) ch =
            (match errn with
             | some er => ⟨insertKey m cc ch, evn, some er⟩
             | none =>
               ⟨(sweepChildren recur p tl (insertKey m cc ch)).children,
                 evn ++ (sweepChildren recur p tl (insertKey m cc ch)).events,
                 (sweepChildren recur p tl (insertKey m cc ch)).err⟩) := by
          rw [sweepChildren, if_pos hdir, hl]
          simp only [hres]
          cases errn <;> rfl
        cases errn with
        | some er =>
          rw [hfirst] at herr
          simp at herr
        | none =>
          rw [hfirst] at herr ⊢
          simp only at herr ⊢
          have herr0 : (recur (p ++ [m]) c).err = none := by rw [hres]
          have hchild : recur (p ++ [m]) cc = ⟨cc, [], none⟩ := by
            have h2 := hrec_idem (p ++ [m]) c herr0
            rw [hres] at h2
            simpa using h2
          have hlf : lookupKey m
              (sweepChildren recur p tl (insertKey m cc ch)).children =
              some cc := by
            rw [sweepChildren_lookup_not_mem hnm, lookupKey_insertKey_self]
          rw [sweepChildren, if_pos hdir]
          simp only [hlf, hchild]
          rw [insertKey_eq_self_of_lookupKey hlf, ih hnodup' herr]
          simp
    · have hfirst : sweepChildren recur p ((m, e) :: tl) ch =
          sweepChildren recur p tl ch := by
        rw [sweepChildren, if_neg hdir]
      rw [hfirst] at herr ⊢
      rw [sweepChildren, if_neg hdir]
      exact ih hnodup' herr

theorem sweepChildren_err_none_of_dirs {recur : Path → DirCache → SweepOut}
    {p : Path} {l : List (String × Entry)}
    (hrec : ∀ n e c, (n, e) ∈ l → e.isDir = true →
      (recur (p ++ [n]) c).err = none) :
    ∀ {ch : List (String × DirCache)},
      (sweepChildren recur p l ch).err = none := by
  induction l with
  | nil => intro ch; simp [sweepChildren]
  | cons hd tl ih =>
    obtain ⟨m, e⟩ := hd
    intro ch
    have hrec' : ∀ n e c, (n, e) ∈ tl → e.isDir = true →
        (recur (p ++ [n]) c).err = none :=
      fun n e c hm hd => hrec n e c (List.mem_cons_of_mem _ hm) hd
    by_cases hdir : e.isDir
    · rw [sweepChildren, if_pos hdir]
      cases hl : lookupKey m ch with
      | none => exact ih hrec'
      | some c =>
        simp only
        cases hre : (recur (p ++ [m]) c).err with
        | some er =>
          rw [hrec m e c (List.mem_cons_self _ _) hdir] at hre
          cases hre
        | none => simp only [hre]; exact ih hrec'
    · rw [sweepChildren, if_neg hdir]
      exact ih hrec'

/-! Lemmas about one visit of `sweep`. -/

theorem mem_unique_of_keysNodup {l : List (String × α)} {n : String} {a b : α}
    (hnodup : keysNodup l) (ha : (n, a) ∈ l) (hb : (n, b) ∈ l) : a = b := by
  have h1 := lookupKey_eq_some_of_mem_nodup hnodup ha
  have h2 := lookupKey_eq_some_of_mem_nodup hnodup hb
  rw [h1] at h2
  cases h2
  rfl

theorem sweep_unfold_main {wd : Watcher} {now : Int} {fsys : FSNode}
    {fuel : Nat} {p : Path} {cache : DirCache} {l l2 : List (String × Entry)}
    (hdir : dirOf wd (prependSubRoot wd p) = .ok true)
    (hrd : readDir fsys p = some l)
    (hfe : filterEntries wd p l = .ok l2)
    (haerr : (addedPass wd now p cache.entries l2).err = none) :
    sweep wd now fsys (fuel + 1) p cache =
      ⟨.mk (addedPass wd now p cache.entries l2).kept
          (sweepChildren (fun q cc => sweep wd now fsys fuel q cc) p
            (addedPass wd now p cache.entries l2).kept
            (ensureChildren (addedPass wd now p cache.entries l2).kept
              (removedPass wd p (addedPass wd now p cache.entries l2).kept
                cache.entries cache.children).children)).children,
        (addedPass wd now p cache.entries l2).events ++
          (removedPass wd p (addedPass wd now p cache.entries l2).kept
            cache.entries cache.children).events ++
          (sweepChildren (fun q cc => sweep wd now fsys fuel q cc) p
            (addedPass wd now p cache.entries l2).kept
            (ensureChildren (addedPass wd now p cache.entries l2).kept
              (removedPass wd p (addedPass wd now p cache.entries l2).kept
                cache.entries cache.children).children)).events,
        (sweepChildren (fun q cc => sweep wd now fsys fuel q cc) p
          (addedPass wd now p cache.entries l2).kept
          (ensureChildren (addedPass wd now p cache.entries l2).kept
            (removedPass wd p (addedPass wd now p cache.entries l2).kept
              cache.entries cache.children).children)).err⟩ := by
  rw [sweep]
  simp only [hdir, hrd, hfe, haerr]

theorem sweep_events_shape {wd : Watcher} {now : Int} {fsys : FSNode} :
    ∀ (fuel : Nat) (p : Path) (cache : DirCache) (x : Event),
      x ∈ (sweep wd now fsys fuel p cache).events →
      ∃ n q, x.file = prependSubRoot wd (p ++ n :: q) := by
  intro fuel
  induction fuel with
  | zero =>
    intro p cache x hx
    rw [sweep] at hx
    cases hdo : dirOf wd (prependSubRoot wd p) with
    | error er => rw [hdo] at hx; simp at hx
    | ok b =>
      rw [hdo] at hx
      cases b <;> simp at hx
  | succ fuel ih =>
    intro p cache x hx
    rw [sweep] at hx
    cases hdo : dirOf wd (prependSubRoot wd p) with
    | error er => rw [hdo] at hx; simp at hx
    | ok b =>
      rw [hdo] at hx
      cases b
      · simp at hx
      · simp only at hx
        cases hrd : readDir fsys p with
        | none => rw [hrd] at hx; simp at hx
        | some l =>
          rw [hrd] at hx
          simp only at hx
          cases hfe : filterEntries wd p l with
          | error er => rw [hfe] at hx; simp at hx
          | ok l2 =>
            rw [hfe] at hx
            simp only at hx
            cases hae : (addedPass wd now p cache.entries l2).err with
            | some er =>
              simp only [hae] at hx
              obtain ⟨ht, n, e, hm, hd, hf⟩ := addedPass_events_shape hx
              exact ⟨n, [], hf⟩
            | none =>
              simp only [hae, List.mem_append] at hx
              rcases hx with (hx | hx) | hx
              · obtain ⟨ht, n, e, hm, hd, hf⟩ := addedPass_events_shape hx
                exact ⟨n, [], hf⟩
              · obtain ⟨ht, n, pe, hm, hk, hor⟩ := removedPass_events_shape hx
                rcases hor with ⟨_, hf⟩ | ⟨_, m, q, hf⟩
                · exact ⟨n, [], hf⟩
                · exact ⟨n, m :: q, hf⟩
              · obtain ⟨m, e, n', s, hm, hd, hf⟩ :=
                  sweepChildren_events_shape (fun q c x hxx => ih q c x hxx) hx
                exact ⟨m, n' :: s, hf⟩

theorem kept_mem_listing {wd : Watcher} {now : Int} {p : Path}
    {ce l l2 : List (String × Entry)} {n : String} {e : Entry}
    (hfe : filterEntries wd p l = .ok l2)
    (hm : (n, e) ∈ (addedPass wd now p ce l2).kept) : (n, e) ∈ l := by
  have h1 : (n, e) ∈ l2 :=
    List.Sublist.mem hm addedPass_kept_sublist
  exact List.Sublist.mem h1 (filterEntries_sublist hfe)

theorem sweep_err_none {wd : Watcher} {now : Int} {fsys : FSNode}
    (hff : wd.fileFilter = none) (hdf : wd.dirFilter = none)
    (hwf : fsys.WF) :
    ∀ (fuel : Nat) (p : Path) (cache : DirCache),
      (∃ es, fsFind fsys p = some (.dir es)) →
      (sweep wd now fsys fuel p cache).err = none := by
  have hdo : ∀ q, dirOf wd q = .ok true := by
    intro q; simp [dirOf, hdf]
  have hfo : ∀ q, filterOf wd q = .ok true := by
    intro q; simp [filterOf, hff]
  intro fuel
  induction fuel with
  | zero =>
    intro p cache _
    rw [sweep]
    simp [hdo]
  | succ fuel ih =>
    intro p cache hex
    obtain ⟨es, hfind⟩ := hex
    have hrd : readDir fsys p = some (es.map fun pr => (pr.1, entryOf pr.2)) := by
      unfold readDir
      rw [hfind]
    have hfe : filterEntries wd p (es.map fun pr => (pr.1, entryOf pr.2)) =
        .ok (es.map fun pr => (pr.1, entryOf pr.2)) :=
      filterEntries_of_none hff
    have hadd := @addedPass_eq wd now p cache.entries
      (es.map fun pr => (pr.1, entryOf pr.2)) (fun n e _ _ _ => hfo _)
    have haerr : (addedPass wd now p cache.entries
        (es.map fun pr => (pr.1, entryOf pr.2))).err = none := by
      rw [hadd]
    rw [sweep_unfold_main (hdo _) hrd hfe haerr]
    simp only
    apply sweepChildren_err_none_of_dirs
    intro n e c hm hd
    apply ih
    exact readDir_child_dir hwf hrd (kept_mem_listing hfe hm) hd

theorem keepB_false_parts {wd : Watcher} {now : Int}
    {ce : List (String × Entry)} {n : String} {e : Entry}
    (h : keepB wd now ce (n, e) = false) :
    e.isDir = false ∧ (lookupKey n ce).isSome = false ∧
      unstableB wd now e = true := by
  simp only [keepB, Bool.or_eq_false_iff, Bool.not_eq_false'] at h
  exact ⟨h.1.1, h.1.2, h.2⟩

theorem lookupKey_none_of_keepB_false {wd : Watcher} {now : Int}
    {ce l2 : List (String × Entry)} {n : String} {e : Entry}
    (hnodup : keysNodup l2) (hpr : (n, e) ∈ l2)
    (hk1 : keepB wd now ce (n, e) = false) :
    lookupKey n (l2.filter (keepB wd now ce)) = none := by
  cases hlk : lookupKey n (l2.filter (keepB wd now ce)) with
  | none => rfl
  | some v =>
    have hv := mem_of_lookupKey_eq_some hlk
    have hvl2 : (n, v) ∈ l2 := (List.mem_filter.mp hv).1
    have hveq : v = e := mem_unique_of_keysNodup hnodup hvl2 hpr
    subst hveq
    have := (List.mem_filter.mp hv).2
    rw [hk1] at this
    cases this

theorem addedPass_idem {wd : Watcher} {now : Int} {p : Path}
    {ce l2 : List (String × Entry)}
    (hF : ∀ n e, (n, e) ∈ l2 → e.isDir = false →
      filterOf wd (prependSubRoot wd (p ++ [n])) = .ok true)
    (hnodup : keysNodup l2) :
    addedPass wd now p (l2.filter (keepB wd now ce)) l2 =
      ⟨l2.filter (keepB wd now ce), [], none⟩ := by
  have hstep := @addedPass_eq wd now p (l2.filter (keepB wd now ce)) l2
    (fun n e hm hd _ => hF n e hm hd)
  rw [hstep]
  have hkeep : l2.filter (keepB wd now (l2.filter (keepB wd now ce))) =
      l2.filter (keepB wd now ce) := by
    apply List.filter_congr
    intro pr hpr
    obtain ⟨n, e⟩ := pr
    cases hk1 : keepB wd now ce (n, e) with
    | true =>
      have hmem : (n, e) ∈ l2.filter (keepB wd now ce) :=
        List.mem_filter.mpr ⟨hpr, hk1⟩
      have hs : (lookupKey n (l2.filter (keepB wd now ce))).isSome :=
        lookupKey_isSome_of_mem hmem
      simp [keepB, hs]
    | false =>
      obtain ⟨hdir0, _, hstab⟩ := keepB_false_parts hk1
      have hnone := lookupKey_none_of_keepB_false hnodup hpr hk1
      simp [keepB, hnone, hdir0, hstab]
  have hadd0 : l2.filter (addB wd now (l2.filter (keepB wd now ce))) = [] := by
    rw [List.filter_eq_nil_iff]
    intro pr hpr
    obtain ⟨n, e⟩ := pr
    cases hlk : lookupKey n (l2.filter (keepB wd now ce)) with
    | some v => simp [addB, hlk]
    | none =>
      have hk1 : keepB wd now ce (n, e) = false := by
        cases hk : keepB wd now ce (n, e) with
        | false => rfl
        | true =>
          have hmem : (n, e) ∈ l2.filter (keepB wd now ce) :=
            List.mem_filter.mpr ⟨hpr, hk⟩
          have hs := lookupKey_isSome_of_mem hmem
          rw [hlk] at hs
          cases hs
      obtain ⟨hdir0, _, hstab⟩ := keepB_false_parts hk1
      simp [addB, hlk, hdir0, hstab]
  rw [hkeep, hadd0]
  simp

theorem sweep_idem {wd : Watcher} {now : Int} {fsys : FSNode} (hwf : fsys.WF) :
    ∀ (fuel : Nat) (p : Path) (cache : DirCache),
      (sweep wd now fsys fuel p cache).err = none →
      sweep wd now fsys fuel p (sweep wd now fsys fuel p cache).cache =
        ⟨(sweep wd now fsys fuel p cache).cache, [], none⟩ := by
  intro fuel
  induction fuel with
  | zero =>
    intro p cache herr
    cases hdo : dirOf wd (prependSubRoot wd p) with
    | error er =>
      have h1 : sweep wd now fsys 0 p cache = ⟨cache, [], some er⟩ := by
        rw [sweep]; simp [hdo]
      rw [h1] at herr
      simp at herr
    | ok b =>
      have h1 : sweep wd now fsys 0 p cache = ⟨cache, [], none⟩ := by
        rw [sweep]; cases b <;> simp [hdo]
      rw [h1]
      simp only
      exact h1
  | succ fuel ih =>
    intro p cache herr
    cases hdo : dirOf wd (prependSubRoot wd p) with
    | error er =>
      have h1 : sweep wd now fsys (fuel + 1) p cache = ⟨cache, [], some er⟩ := by
        rw [sweep]; simp [hdo]
      rw [h1] at herr
      simp at herr
    | ok b =>
      cases b with
      | false =>
        have h1 : sweep wd now fsys (fuel + 1) p cache = ⟨cache, [], none⟩ := by
          rw [sweep]; simp [hdo]
        rw [h1]
        simp only
        exact h1
      | true =>
        cases hrd : readDir fsys p with
        | none =>
          have h1 : sweep wd now fsys (fuel + 1) p cache =
              ⟨cache, [], some (.notDir p)⟩ := by
            rw [sweep]; simp [hdo, hrd]
          rw [h1] at herr
          simp at herr
        | some l =>
          cases hfe : filterEntries wd p l with
          | error er =>
            have h1 : sweep wd now fsys (fuel + 1) p cache =
                ⟨cache, [], some er⟩ := by
              rw [sweep]; simp [hdo, hrd, hfe]
            rw [h1] at herr
            simp at herr
          | ok l2 =>
            have hlnodup : keysNodup l := readDir_keysNodup hwf hrd
            have hl2eq := filterEntries_eq_filter hfe
            have hl2nodup : keysNodup l2 := by
              rw [hl2eq]; exact keysNodup_filter _ hlnodup
            have hF : ∀ n e, (n, e) ∈ l2 → e.isDir = false →
                filterOf wd (prependSubRoot wd (p ++ [n])) = .ok true :=
              fun n e hm hd => filterOf_ok_of_mem hfe hm hd
            have hadd1 := @addedPass_eq wd now p cache.entries l2
              (fun n e hm hd _ => hF n e hm hd)
            have haerr : (addedPass wd now p cache.entries l2).err = none := by
              rw [hadd1]
            have hkept : (addedPass wd now p cache.entries l2).kept =
                l2.filter (keepB wd now cache.entries) := by
              rw [hadd1]
            have hkeptnodup : keysNodup (addedPass wd now p cache.entries l2).kept := by
              rw [hkept]; exact keysNodup_filter _ hl2nodup
            have hmain := @sweep_unfold_main wd now fsys fuel p cache l l2
              hdo hrd hfe haerr
            rw [hmain] at herr
            simp only at herr
            rw [hmain]
            simp only [DirCache.entries_mk, DirCache.children_mk]
            -- second added pass is a no-op
            have hadd2 : addedPass wd now p
                (addedPass wd now p cache.entries l2).kept l2 =
                ⟨(addedPass wd now p cache.entries l2).kept, [], none⟩ := by
              rw [hkept]
              exact addedPass_idem hF hl2nodup
            -- second removed pass is a no-op
            have hR2 : ∀ ch2 : List (String × DirCache),
                removedPass wd p (addedPass wd now p cache.entries l2).kept
                  (addedPass wd now p cache.entries l2).kept ch2 = ⟨ch2, []⟩ :=
              fun ch2 => removedPass_skip_all
                (fun n pe hm => lookupKey_isSome_of_mem hm)
            -- the final children map contains a node for every current dir
            have hsome : ∀ n e, (n, e) ∈ (addedPass wd now p cache.entries l2).kept →
                e.isDir = true →
                (lookupKey n (sweepChildren
                  (fun q cc => sweep wd now fsys fuel q cc) p
                  (addedPass wd now p cache.entries l2).kept
                  (ensureChildren (addedPass wd now p cache.entries l2).kept
                    (removedPass wd p (addedPass wd now p cache.entries l2).kept
                      cache.entries cache.children).children)).children).isSome := by
              intro n e hm hd
              exact sweepChildren_preserve_isSome
                (ensureChildren_isSome_of_dir hm hd)
            have hens : ensureChildren (addedPass wd now p cache.entries l2).kept
                (sweepChildren (fun q cc => sweep wd now fsys fuel q cc) p
                  (addedPass wd now p cache.entries l2).kept
                  (ensureChildren (addedPass wd now p cache.entries l2).kept
                    (removedPass wd p (addedPass wd now p cache.entries l2).kept
                      cache.entries cache.children).children)).children =
                (sweepChildren (fun q cc => sweep wd now fsys fuel q cc) p
                  (addedPass wd now p cache.entries l2).kept
                  (ensureChildren (addedPass wd now p cache.entries l2).kept
                    (removedPass wd p (addedPass wd now p cache.entries l2).kept
                      cache.entries cache.children).children)).children :=
              ensureChildren_eq_self hsome
            have hsc := @sweepChildren_idem
              (fun q cc => sweep wd now fsys fuel q cc) p
              (fun q c hq => ih q c hq)
              (addedPass wd now p cache.entries l2).kept
              (ensureChildren (addedPass wd now p cache.entries l2).kept
                (removedPass wd p (addedPass wd now p cache.entries l2).kept
                  cache.entries cache.children).children)
              hkeptnodup herr
            have haerr2 : (addedPass wd now p
                (DirCache.mk (addedPass wd now p cache.entries l2).kept
                  (sweepChildren (fun q cc => sweep wd now fsys fuel q cc) p
                    (addedPass wd now p cache.entries l2).kept
                    (ensureChildren (addedPass wd now p cache.entries l2).kept
                      (removedPass wd p (addedPass wd now p cache.entries l2).kept
                        cache.entries cache.children).children)).children).entries
                l2).err = none := by
              simp only [DirCache.entries_mk, hadd2]
            rw [sweep_unfold_main hdo hrd hfe haerr2]
            simp only [DirCache.entries_mk, DirCache.children_mk, hadd2, hR2,
              hens, hsc]
            simp

theorem getSweepFS_WF {wd : Watcher} {fsys sub : FSNode} (hwf : fsys.WF)
    (h : getSweepFS wd fsys = .ok sub) : sub.WF := by
  unfold getSweepFS at h
  by_cases hs : wd.subRoot = []
  · rw [if_pos hs] at h
    cases h
    exact hwf
  · rw [if_neg hs] at h
    cases hf : fsFind fsys wd.subRoot with
    | none => rw [hf] at h; cases h
    | some node =>
      rw [hf] at h
      cases h
      exact hwf.fsFind hf

/-! Alignment of the budgeted sweep with the plain sweep: the budgeted
run's events are always a prefix of the plain run's events, and a budgeted
run that finishes without error coincides with the plain run. -/

theorem addedPassC_align {wd : Watcher} {now : Int} {p : Path}
    {ce : List (String × Entry)} :
    ∀ (l : List (String × Entry)) (b : Nat),
      (∃ t, (addedPass wd now p ce l).events =
        (addedPassC wd now p ce l b).events ++ t) ∧
      ((addedPassC wd now p ce l b).err = none →
        (addedPassC wd now p ce l b).kept = (addedPass wd now p ce l).kept ∧
        (addedPassC wd now p ce l b).events =
          (addedPass wd now p ce l).events ∧
        (addedPass wd now p ce l).err = none) := by
  intro l
  induction l with
  | nil =>
    intro b
    exact ⟨⟨[], rfl⟩, fun _ => ⟨rfl, rfl, rfl⟩⟩
  | cons hd tl ih =>
    intro b
    obtain ⟨n, e⟩ := hd
    simp only [addedPass, addedPassC]
    by_cases hdir : e.isDir
    · simp only [if_pos hdir]
      obtain ⟨⟨t, ht⟩, h2⟩ := ih b
      refine ⟨⟨t, by simpa using ht⟩, fun he => ?_⟩
      simp only at he
      obtain ⟨hk, hev, herr⟩ := h2 he
      exact ⟨by simp [hk], by simpa using hev, herr⟩
    · simp only [if_neg hdir]
      by_cases hce : (lookupKey n ce).isSome
      · simp only [if_pos hce]
        obtain ⟨⟨t, ht⟩, h2⟩ := ih b
        refine ⟨⟨t, by simpa using ht⟩, fun he => ?_⟩
        simp only at he
        obtain ⟨hk, hev, herr⟩ := h2 he
        exact ⟨by simp [hk], by simpa using hev, herr⟩
      · simp only [if_neg hce]
        cases hfo : filterOf wd (prependSubRoot wd (p ++ [n])) with
        | error er =>
          exact ⟨⟨[], rfl⟩, by simp⟩
        | ok bv =>
          cases bv with
          | false => exact ih b
          | true =>
            by_cases hst : 0 < wd.writeStabilityThreshold ∧
                e.modTime + wd.writeStabilityThreshold > now
            · simp only [if_pos hst]
              exact ih b
            · simp only [if_neg hst]
              by_cases hm : wd.eventsMask.land FileAdded ≠ 0
              · simp only [if_pos hm]
                cases b with
                | zero =>
                  exact ⟨⟨_, (List.nil_append _).symm⟩, by simp⟩
                | succ b0 =>
                  obtain ⟨⟨t, ht⟩, h2⟩ := ih b0
                  refine ⟨⟨t, by simp [ht]⟩, fun he => ?_⟩
                  simp only at he
                  obtain ⟨hk, hev, herr⟩ := h2 he
                  exact ⟨by simp [hk], by simp [hev], herr⟩
              · simp only [if_neg hm]
                obtain ⟨⟨t, ht⟩, h2⟩ := ih b
                refine ⟨⟨t, by simp [ht, hm]⟩, fun he => ?_⟩
                simp only at he
                obtain ⟨hk, hev, herr⟩ := h2 he
                exact ⟨by simp [hk], by simp [hev, hm], herr⟩

theorem sweepDeletedChildC_eq {wd : Watcher} {p : Path} {n : String}
    {ch : List (String × DirCache)} {b : Nat} :
    sweepDeletedChildC wd p n ch b =
      (match lookupKey n ch with
       | some c => sweepDeletedC wd p c b
       | none => ⟨[], b, none⟩) := by
  induction ch with
  | nil => simp [sweepDeletedChildC, lookupKey]
  | cons hd tl ih =>
    obtain ⟨m, c⟩ := hd
    by_cases hm : m = n <;> simp [sweepDeletedChildC, lookupKey, hm, ih]

theorem sweepDeletedEntriesC_cons (wd : Watcher) (p : Path) (n : String)
    (pe : Entry) (tl : List (String × Entry)) (ch : List (String × DirCache))
    (b : Nat) :
    sweepDeletedEntriesC wd p ((n, pe) :: tl) ch b =
      (if pe.isDir then
        match (sweepDeletedChildC wd (p ++ [n]) n ch b).err with
        | some er => ⟨(sweepDeletedChildC wd (p ++ [n]) n ch b).events,
            (sweepDeletedChildC wd (p ++ [n]) n ch b).budget, some er⟩
        | none =>
          ⟨(sweepDeletedChildC wd (p ++ [n]) n ch b).events ++
              (sweepDeletedEntriesC wd p tl ch
                (sweepDeletedChildC wd (p ++ [n]) n ch b).budget).events,
            (sweepDeletedEntriesC wd p tl ch
              (sweepDeletedChildC wd (p ++ [n]) n ch b).budget).budget,
            (sweepDeletedEntriesC wd p tl ch
              (sweepDeletedChildC wd (p ++ [n]) n ch b).budget).err⟩
      else if wd.eventsMask.land FileRemoved ≠ 0 then
        match b with
        | 0 => ⟨[], 0, some .canceled⟩
        | b0 + 1 =>
          ⟨⟨FileRemoved, prependSubRoot wd (p ++ [n])⟩ ::
              (sweepDeletedEntriesC wd p tl ch b0).events,
            (sweepDeletedEntriesC wd p tl ch b0).budget,
            (sweepDeletedEntriesC wd p tl ch b0).err⟩
      else sweepDeletedEntriesC wd p tl ch b) := by
  rw [sweepDeletedEntriesC.eq_def]

theorem sweepDeletedC_align_aux (wd : Watcher) :
    ∀ (k : Nat) (c : DirCache), sizeOf c ≤ k → ∀ (p : Path) (b : Nat),
      (∃ t, sweepDeleted wd p c = (sweepDeletedC wd p c b).events ++ t) ∧
      ((sweepDeletedC wd p c b).err = none →
        (sweepDeletedC wd p c b).events = sweepDeleted wd p c) := by
  intro k
  induction k with
  | zero =>
    intro c hc
    obtain ⟨es, ch⟩ := c
    simp only [DirCache.mk.sizeOf_spec] at hc
    omega
  | succ k ih =>
    intro c hc p b
    obtain ⟨es, ch⟩ := c
    have hch : sizeOf ch ≤ k := by
      simp only [DirCache.mk.sizeOf_spec] at hc
      omega
    clear hc
    simp only [sweepDeleted, sweepDeletedC]
    induction es generalizing b with
    | nil =>
      exact ⟨⟨[], by simp [sweepDeletedEntries, sweepDeletedEntriesC]⟩,
        fun _ => by simp [sweepDeletedEntries, sweepDeletedEntriesC]⟩
    | cons hd tl ihes =>
      obtain ⟨n, pe⟩ := hd
      simp only [sweepDeletedEntries, sweepDeletedEntriesC_cons]
      by_cases hdir : pe.isDir
      · simp only [if_pos hdir, sweepDeletedChild_eq, sweepDeletedChildC_eq]
        cases hl : lookupKey n ch with
        | none =>
          simp only [hl]
          obtain ⟨⟨t, ht⟩, h2⟩ := ihes b
          exact ⟨⟨t, by simpa using ht⟩, fun he => by simpa using h2 he⟩
        | some c0 =>
          simp only [hl]
          have hsz : sizeOf c0 ≤ k :=
            Nat.le_of_lt_succ (Nat.lt_of_lt_of_le
              (Nat.lt_of_lt_of_le (sizeOf_lookupKey_lt hl) hch)
              (Nat.le_succ k))
          obtain ⟨⟨t1, ht1⟩, h12⟩ := ih c0 hsz (p ++ [n]) b
          cases herr : (sweepDeletedC wd (p ++ [n]) c0 b).err with
          | some er =>
            simp only [herr]
            refine ⟨⟨t1 ++ sweepDeletedEntries wd p tl ch, ?_⟩, fun he => ?_⟩
            · show sweepDeleted wd (p ++ [n]) c0 ++
                  sweepDeletedEntries wd p tl ch =
                (sweepDeletedC wd (p ++ [n]) c0 b).events ++
                  (t1 ++ sweepDeletedEntries wd p tl ch)
              rw [ht1, List.append_assoc]
            · simp at he
          | none =>
            simp only [herr]
            have hev1 := h12 herr
            obtain ⟨⟨t, ht⟩, h2⟩ :=
              ihes (sweepDeletedC wd (p ++ [n]) c0 b).budget
            refine ⟨⟨t, ?_⟩, fun he => ?_⟩
            · show sweepDeleted wd (p ++ [n]) c0 ++
                  sweepDeletedEntries wd p tl ch =
                ((sweepDeletedC wd (p ++ [n]) c0 b).events ++
                  (sweepDeletedEntriesC wd p tl ch
                    (sweepDeletedC wd (p ++ [n]) c0 b).budget).events) ++ t
              rw [← hev1, ht, List.append_assoc]
            · have he2 : (sweepDeletedEntriesC wd p tl ch
                  (sweepDeletedC wd (p ++ [n]) c0 b).budget).err = none := by
                simpa using he
              show (sweepDeletedC wd (p ++ [n]) c0 b).events ++
                  (sweepDeletedEntriesC wd p tl ch
                    (sweepDeletedC wd (p ++ [n]) c0 b).budget).events =
                sweepDeleted wd (p ++ [n]) c0 ++
                  sweepDeletedEntries wd p tl ch
              rw [hev1, h2 he2]
      · simp only [if_neg hdir]
        by_cases hmask : wd.eventsMask.land FileRemoved ≠ 0
        · simp only [if_pos hmask]
          cases b with
          | zero =>
            refine ⟨⟨_, (List.nil_append _).symm⟩, fun he => ?_⟩
            simp at he
          | succ b0 =>
            obtain ⟨⟨t, ht⟩, h2⟩ := ihes b0
            refine ⟨⟨t, ?_⟩, fun he => ?_⟩
            · show (⟨FileRemoved, prependSubRoot wd (p ++ [n])⟩ : Event) ::
                  []  ++ sweepDeletedEntries wd p tl ch =
                ((⟨FileRemoved, prependSubRoot wd (p ++ [n])⟩ : Event) ::
                  (sweepDeletedEntriesC wd p tl ch b0).events) ++ t
              rw [ht]
              simp
            · have he2 : (sweepDeletedEntriesC wd p tl ch b0).err = none := by
                simpa using he
              show (⟨FileRemoved, prependSubRoot wd (p ++ [n])⟩ : Event) ::
                  (sweepDeletedEntriesC wd p tl ch b0).events =
                (⟨FileRemoved, prependSubRoot wd (p ++ [n])⟩ : Event) ::
                  []  ++ sweepDeletedEntries wd p tl ch
              rw [h2 he2]
              simp
        · simp only [if_neg hmask]
          obtain ⟨⟨t, ht⟩, h2⟩ := ihes b
          refine ⟨⟨t, by simpa using ht⟩, fun he => by simpa using h2 he⟩

theorem sweepDeletedC_align {wd : Watcher} {p : Path} {c : DirCache}
    {b : Nat} :
    (∃ t, sweepDeleted wd p c = (sweepDeletedC wd p c b).events ++ t) ∧
    ((sweepDeletedC wd p c b).err = none →
      (sweepDeletedC wd p c b).events = sweepDeleted wd p c) :=
  sweepDeletedC_align_aux wd (sizeOf c) c le_rfl p b

theorem removedPassC_cons (wd : Watcher) (p : Path)
    (kept : List (String × Entry)) (n : String) (pe : Entry)
    (tl : List (String × Entry)) (ch : List (String × DirCache)) (b : Nat) :
    removedPassC wd p kept ((n, pe) :: tl) ch b =
      (if (lookupKey n kept).isSome then removedPassC wd p kept tl ch b
       else if pe.isDir then
         let r :=
           match lookupKey n ch with
           | some c => sweepDeletedC wd (p ++ [n]) c b
           | none => ⟨[], b, none⟩
         match r.err with
         | some er => ⟨ch, r.events, r.budget, some er⟩
         | none =>
           let rr := removedPassC wd p kept tl (eraseKey n ch) r.budget
           ⟨rr.children, r.events ++ rr.events, rr.budget, rr.err⟩
       else if wd.eventsMask.land FileRemoved ≠ 0 then
         match b with
         | 0 => ⟨ch, [], 0, some .canceled⟩
         | b0 + 1 =>
           let rr := removedPassC wd p kept tl ch b0
           ⟨rr.children,
             ⟨FileRemoved, prependSubRoot wd (p ++ [n])⟩ :: rr.events,
             rr.budget, rr.err⟩
       else removedPassC wd p kept tl ch b) := rfl

theorem removedPassC_align {wd : Watcher} {p : Path}
    {kept : List (String × Entry)} :
    ∀ (ces : List (String × Entry)) (ch : List (String × DirCache)) (b : Nat),
      (∃ t, (removedPass wd p kept ces ch).events =
        (removedPassC wd p kept ces ch b).events ++ t) ∧
      ((removedPassC wd p kept ces ch b).err = none →
        (removedPassC wd p kept ces ch b).children =
          (removedPass wd p kept ces ch).children ∧
        (removedPassC wd p kept ces ch b).events =
          (removedPass wd p kept ces ch).events) := by
  intro ces
  induction ces with
  | nil =>
    intro ch b
    exact ⟨⟨[], rfl⟩, fun _ => ⟨rfl, rfl⟩⟩
  | cons hd tl ih =>
    intro ch b
    obtain ⟨n, pe⟩ := hd
    rw [removedPass, removedPassC_cons]
    by_cases hk : (lookupKey n kept).isSome
    · simp only [if_pos hk]
      exact ih ch b
    · simp only [if_neg hk]
      by_cases hdir : pe.isDir
      · simp only [if_pos hdir]
        cases hl : lookupKey n ch with
        | none =>
          simp only [hl]
          obtain ⟨⟨t, ht⟩, h2⟩ := ih (eraseKey n ch) b
          refine ⟨⟨t, by simpa using ht⟩, fun he => ?_⟩
          have he2 : (removedPassC wd p kept tl (eraseKey n ch) b).err =
              none := by simpa using he
          obtain ⟨hc2, he2e⟩ := h2 he2
          exact ⟨by simpa using hc2, by simpa using he2e⟩
        | some c0 =>
          simp only [hl]
          cases herr : (sweepDeletedC wd (p ++ [n]) c0 b).err with
          | some er =>
            simp only [herr]
            obtain ⟨⟨t1, ht1⟩, _⟩ :=
              @sweepDeletedC_align wd (p ++ [n]) c0 b
            refine ⟨⟨t1 ++ (removedPass wd p kept tl (eraseKey n ch)).events,
              ?_⟩, fun he => ?_⟩
            · show sweepDeleted wd (p ++ [n]) c0 ++
                  (removedPass wd p kept tl (eraseKey n ch)).events =
                (sweepDeletedC wd (p ++ [n]) c0 b).events ++
                  (t1 ++ (removedPass wd p kept tl (eraseKey n ch)).events)
              rw [ht1, List.append_assoc]
            · simp at he
          | none =>
            simp only [herr]
            have hev1 := (@sweepDeletedC_align wd (p ++ [n]) c0 b).2 herr
            obtain ⟨⟨t, ht⟩, h2⟩ := ih (eraseKey n ch)
              (sweepDeletedC wd (p ++ [n]) c0 b).budget
            refine ⟨⟨t, ?_⟩, fun he => ?_⟩
            · show sweepDeleted wd (p ++ [n]) c0 ++
                  (removedPass wd p kept tl (eraseKey n ch)).events =
                ((sweepDeletedC wd (p ++ [n]) c0 b).events ++
                  (removedPassC wd p kept tl (eraseKey n ch)
                    (sweepDeletedC wd (p ++ [n]) c0 b).budget).events) ++ t
              rw [← hev1, ht, List.append_assoc]
            · have he2 : (removedPassC wd p kept tl (eraseKey n ch)
                  (sweepDeletedC wd (p ++ [n]) c0 b).budget).err = none := by
                simpa using he
              obtain ⟨hc2, he2e⟩ := h2 he2
              refine ⟨by simpa using hc2, ?_⟩
              show (sweepDeletedC wd (p ++ [n]) c0 b).events ++
                  (removedPassC wd p kept tl (eraseKey n ch)
                    (sweepDeletedC wd (p ++ [n]) c0 b).budget).events =
                sweepDeleted wd (p ++ [n]) c0 ++
                  (removedPass wd p kept tl (eraseKey n ch)).events
              rw [hev1, he2e]
      · simp only [if_neg hdir]
        by_cases hmask : wd.eventsMask.land FileRemoved ≠ 0
        · simp only [if_pos hmask]
          cases b with
          | zero =>
            refine ⟨⟨_, (List.nil_append _).symm⟩, fun he => ?_⟩
            simp at he
          | succ b0 =>
            obtain ⟨⟨t, ht⟩, h2⟩ := ih ch b0
            refine ⟨⟨t, ?_⟩, fun he => ?_⟩
            · show (⟨FileRemoved, prependSubRoot wd (p ++ [n])⟩ : Event) ::
                  []  ++ (removedPass wd p kept tl ch).events =
                ((⟨FileRemoved, prependSubRoot wd (p ++ [n])⟩ : Event) ::
                  (removedPassC wd p kept tl ch b0).events) ++ t
              rw [ht]
              simp
            · have he2 : (removedPassC wd p kept tl ch b0).err = none := by
                simpa using he
              obtain ⟨hc2, he2e⟩ := h2 he2
              refine ⟨by simpa using hc2, ?_⟩
              show (⟨FileRemoved, prependSubRoot wd (p ++ [n])⟩ : Event) ::
                  (removedPassC wd p kept tl ch b0).events =
                (⟨FileRemoved, prependSubRoot wd (p ++ [n])⟩ : Event) ::
                  []  ++ (removedPass wd p kept tl ch).events
              rw [he2e]
              simp
        · simp only [if_neg hmask]
          obtain ⟨⟨t, ht⟩, h2⟩ := ih ch b
          refine ⟨⟨t, by simpa using ht⟩, fun he => ?_⟩
          have he2 : (removedPassC wd p kept tl ch b).err = none := by
            simpa using he
          obtain ⟨hc2, he2e⟩ := h2 he2
          exact ⟨by simpa using hc2, by simpa using he2e⟩

theorem sweepChildrenC_cons (recurC : Path → DirCache → Nat → SweepOutC)
    (p : Path) (n : String) (e : Entry) (tl : List (String × Entry))
    (ch : List (String × DirCache)) (b : Nat) :
    sweepChildrenC recurC p ((n, e) :: tl) ch b =
      (if e.isDir then
        match lookupKey n ch with
        | none => sweepChildrenC recurC p tl ch b
        | some c =>
          let r := recurC (p ++ [n]) c b
          let ch2 := insertKey n r.cache ch
          match r.err with
          | some er => ⟨ch2, r.events, r.budget, some er⟩
          | none =>
            let rr := sweepChildrenC recurC p tl ch2 r.budget
            ⟨rr.children, r.events ++ rr.events, rr.budget, rr.err⟩
      else sweepChildrenC recurC p tl ch b) := rfl

theorem sweepChildrenC_align {recur : Path → DirCache → SweepOut}
    {recurC : Path → DirCache → Nat → SweepOutC} {p : Path}
    (hrec : ∀ (q : Path) (cc : DirCache) (bb : Nat),
      (∃ t, (recur q cc).events = (recurC q cc bb).events ++ t) ∧
      ((recurC q cc bb).err = none →
        (recurC q cc bb).cache = (recur q cc).cache ∧
        (recurC q cc bb).events = (recur q cc).events ∧
        (recur q cc).err = none)) :
    ∀ (l : List (String × Entry)) (ch : List (String × DirCache)) (b : Nat),
      (∃ t, (sweepChildren recur p l ch).events =
        (sweepChildrenC recurC p l ch b).events ++ t) ∧
      ((sweepChildrenC recurC p l ch b).err = none →
        (sweepChildrenC recurC p l ch b).children =
          (sweepChildren recur p l ch).children ∧
        (sweepChildrenC recurC p l ch b).events =
          (sweepChildren recur p l ch).events ∧
        (sweepChildren recur p l ch).err = none) := by
  intro l
  induction l with
  | nil =>
    intro ch b
    exact ⟨⟨[], rfl⟩, fun _ => ⟨rfl, rfl, rfl⟩⟩
  | cons hd tl ih =>
    intro ch b
    obtain ⟨n, e⟩ := hd
    rw [sweepChildren, sweepChildrenC_cons]
    by_cases hdir : e.isDir
    · simp only [if_pos hdir]
      cases hl : lookupKey n ch with
      | none =>
        simp only [hl]
        exact ih ch b
      | some c0 =>
        simp only [hl]
        cases herr : (recurC (p ++ [n]) c0 b).err with
        | some er =>
          simp only [herr]
          obtain ⟨⟨t1, ht1⟩, _⟩ := hrec (p ++ [n]) c0 b
          cases herr2 : (recur (p ++ [n]) c0).err with
          | some er2 =>
            simp only [herr2]
            refine ⟨⟨t1, by simpa using ht1⟩, fun he => ?_⟩
            simp at he
          | none =>
            simp only [herr2]
            refine ⟨⟨t1 ++ (sweepChildren recur p tl
              (insertKey n (recur (p ++ [n]) c0).cache ch)).events, ?_⟩,
              fun he => ?_⟩
            · show (recur (p ++ [n]) c0).events ++
                  (sweepChildren recur p tl
                    (insertKey n (recur (p ++ [n]) c0).cache ch)).events =
                (recurC (p ++ [n]) c0 b).events ++
                  (t1 ++ (sweepChildren recur p tl
                    (insertKey n (recur (p ++ [n]) c0).cache ch)).events)
              rw [ht1, List.append_assoc]
            · simp at he
        | none =>
          obtain ⟨hcache, hev, herrp⟩ := (hrec (p ++ [n]) c0 b).2 herr
          simp only [herr, herrp, hcache]
          obtain ⟨⟨t, ht⟩, h2⟩ := ih
            (insertKey n (recur (p ++ [n]) c0).cache ch)
            (recurC (p ++ [n]) c0 b).budget
          refine ⟨⟨t, ?_⟩, fun he => ?_⟩
          · show (recur (p ++ [n]) c0).events ++
                (sweepChildren recur p tl
                  (insertKey n (recur (p ++ [n]) c0).cache ch)).events =
              ((recurC (p ++ [n]) c0 b).events ++
                (sweepChildrenC recurC p tl
                  (insertKey n (recur (p ++ [n]) c0).cache ch)
                  (recurC (p ++ [n]) c0 b).budget).events) ++ t
            rw [hev, ht, List.append_assoc]
          · have he2 : (sweepChildrenC recurC p tl
                (insertKey n (recur (p ++ [n]) c0).cache ch)
                (recurC (p ++ [n]) c0 b).budget).err = none := by
              simpa using he
            obtain ⟨hc2, he2e, hp2⟩ := h2 he2
            refine ⟨by simpa using hc2, ?_, by simpa using hp2⟩
            show (recurC (p ++ [n]) c0 b).events ++
                (sweepChildrenC recurC p tl
                  (insertKey n (recur (p ++ [n]) c0).cache ch)
                  (recurC (p ++ [n]) c0 b).budget).events =
              (recur (p ++ [n]) c0).events ++
                (sweepChildren recur p tl
                  (insertKey n (recur (p ++ [n]) c0).cache ch)).events
            rw [hev, he2e]
    · simp only [if_neg hdir]
      exact ih ch b

theorem sweepC_zero_budget (wd : Watcher) (now : Int) (fsys : FSNode)
    (fuel : Nat) (p : Path) (cache : DirCache) :
    sweepC wd now fsys fuel p cache 0 = ⟨cache, [], 0, some .canceled⟩ := by
  cases fuel <;> rfl

theorem sweepC_succ (wd : Watcher) (now : Int) (fsys : FSNode) (fuel : Nat)
    (p : Path) (cache : DirCache) (b0 : Nat) :
    sweepC wd now fsys fuel p cache (b0 + 1) =
      (match dirOf wd (prependSubRoot wd p) with
      | .error er => ⟨cache, [], b0, some er⟩
      | .ok false => ⟨cache, [], b0, none⟩
      | .ok true =>
        match fuel with
        | 0 => ⟨cache, [], b0, none⟩
        | fuel0 + 1 =>
          match readDir fsys p with
          | none => ⟨cache, [], b0, some (.notDir p)⟩
          | some listing =>
            match filterEntries wd p listing with
            | .error er => ⟨cache, [], b0, some er⟩
            | .ok l2 =>
              let a := addedPassC wd now p cache.entries l2 b0
              match a.err with
              | some er => ⟨cache, a.events, a.budget, some er⟩
              | none =>
                let r := removedPassC wd p a.kept cache.entries cache.children
                  a.budget
                match r.err with
                | some er =>
                  ⟨.mk cache.entries r.children, a.events ++ r.events,
                    r.budget, some er⟩
                | none =>
                  let ch2 := ensureChildren a.kept r.children
                  let c := sweepChildrenC
                    (fun q cc bb => sweepC wd now fsys fuel0 q cc bb)
                    p a.kept ch2 r.budget
                  ⟨.mk a.kept c.children, a.events ++ r.events ++ c.events,
                    c.budget, c.err⟩) := by
  cases fuel <;> (rw [sweepC]; try rfl)

theorem sweep_dir_error {wd : Watcher} {now : Int} {fsys : FSNode} {er : Err}
    (fuel : Nat) (p : Path) (cache : DirCache)
    (hdo : dirOf wd (prependSubRoot wd p) = .error er) :
    sweep wd now fsys fuel p cache = ⟨cache, [], some er⟩ := by
  cases fuel <;> (rw [sweep]; simp [hdo])

theorem sweep_dir_false {wd : Watcher} {now : Int} {fsys : FSNode}
    (fuel : Nat) (p : Path) (cache : DirCache)
    (hdo : dirOf wd (prependSubRoot wd p) = .ok false) :
    sweep wd now fsys fuel p cache = ⟨cache, [], none⟩ := by
  cases fuel <;> (rw [sweep]; simp [hdo])

theorem sweep_fuel_zero {wd : Watcher} {now : Int} {fsys : FSNode}
    (p : Path) (cache : DirCache)
    (hdo : dirOf wd (prependSubRoot wd p) = .ok true) :
    sweep wd now fsys 0 p cache = ⟨cache, [], none⟩ := by
  rw [sweep]
  simp [hdo]

theorem sweepC_dir_error {wd : Watcher} {now : Int} {fsys : FSNode} {er : Err}
    (fuel : Nat) (p : Path) (cache : DirCache) (b0 : Nat)
    (hdo : dirOf wd (prependSubRoot wd p) = .error er) :
    sweepC wd now fsys fuel p cache (b0 + 1) = ⟨cache, [], b0, some er⟩ := by
  rw [sweepC_succ]
  simp [hdo]

theorem sweepC_dir_false {wd : Watcher} {now : Int} {fsys : FSNode}
    (fuel : Nat) (p : Path) (cache : DirCache) (b0 : Nat)
    (hdo : dirOf wd (prependSubRoot wd p) = .ok false) :
    sweepC wd now fsys fuel p cache (b0 + 1) = ⟨cache, [], b0, none⟩ := by
  rw [sweepC_succ]
  simp [hdo]

theorem sweepC_fuel_zero {wd : Watcher} {now : Int} {fsys : FSNode}
    (p : Path) (cache : DirCache) (b0 : Nat)
    (hdo : dirOf wd (prependSubRoot wd p) = .ok true) :
    sweepC wd now fsys 0 p cache (b0 + 1) = ⟨cache, [], b0, none⟩ := by
  rw [sweepC_succ]
  simp [hdo]

theorem sweepC_align {wd : Watcher} {now : Int} {fsys : FSNode} :
    ∀ (fuel : Nat) (p : Path) (cache : DirCache) (b : Nat),
      (∃ t, (sweep wd now fsys fuel p cache).events =
        (sweepC wd now fsys fuel p cache b).events ++ t) ∧
      ((sweepC wd now fsys fuel p cache b).err = none →
        (sweepC wd now fsys fuel p cache b).cache =
          (sweep wd now fsys fuel p cache).cache ∧
        (sweepC wd now fsys fuel p cache b).events =
          (sweep wd now fsys fuel p cache).events ∧
        (sweep wd now fsys fuel p cache).err = none) := by
  intro fuel
  induction fuel with
  | zero =>
    intro p cache b
    cases b with
    | zero =>
      rw [sweepC_zero_budget]
      exact ⟨⟨_, (List.nil_append _).symm⟩, fun he => by simp at he⟩
    | succ b0 =>
      cases hdo : dirOf wd (prependSubRoot wd p) with
      | error er =>
        rw [sweep_dir_error 0 p cache hdo, sweepC_dir_error 0 p cache b0 hdo]
        exact ⟨⟨[], rfl⟩, fun he => by simp at he⟩
      | ok bv =>
        cases bv with
        | false =>
          rw [sweep_dir_false 0 p cache hdo, sweepC_dir_false 0 p cache b0 hdo]
          exact ⟨⟨[], rfl⟩, fun _ => ⟨rfl, rfl, rfl⟩⟩
        | true =>
          rw [sweep_fuel_zero p cache hdo, sweepC_fuel_zero p cache b0 hdo]
          exact ⟨⟨[], rfl⟩, fun _ => ⟨rfl, rfl, rfl⟩⟩
  | succ fuel ih =>
    intro p cache b
    cases b with
    | zero =>
      rw [sweepC_zero_budget]
      exact ⟨⟨_, (List.nil_append _).symm⟩, fun he => by simp at he⟩
    | succ b0 =>
      cases hdo : dirOf wd (prependSubRoot wd p) with
      | error er =>
        rw [sweep_dir_error (fuel + 1) p cache hdo,
          sweepC_dir_error (fuel + 1) p cache b0 hdo]
        exact ⟨⟨[], rfl⟩, fun he => by simp at he⟩
      | ok bv =>
        cases bv with
        | false =>
          rw [sweep_dir_false (fuel + 1) p cache hdo,
            sweepC_dir_false (fuel + 1) p cache b0 hdo]
          exact ⟨⟨[], rfl⟩, fun _ => ⟨rfl, rfl, rfl⟩⟩
        | true =>
          rw [sweep, sweepC_succ]
          simp only [hdo]
          cases hrd : readDir fsys p with
          | none =>
            simp only [hrd]
            exact ⟨⟨[], rfl⟩, fun he => by simp at he⟩
          | some l =>
            simp only [hrd]
            cases hfe : filterEntries wd p l with
            | error er =>
              simp only [hfe]
              exact ⟨⟨[], rfl⟩, fun he => by simp at he⟩
            | ok l2 =>
              simp only [hfe]
              obtain ⟨⟨t1, ht1⟩, hA2⟩ :=
                @addedPassC_align wd now p cache.entries l2 b0
              cases haC : (addedPassC wd now p cache.entries l2 b0).err with
              | some er =>
                simp only [haC]
                cases haP : (addedPass wd now p cache.entries l2).err with
                | some er2 =>
                  simp only [haP]
                  exact ⟨⟨t1, by simpa using ht1⟩, fun he => by simp at he⟩
                | none =>
                  simp only [haP]
                  refine ⟨⟨t1 ++
                    ((removedPass wd p
                        (addedPass wd now p cache.entries l2).kept
                        cache.entries cache.children).events ++
                      (sweepChildren (fun q cc => sweep wd now fsys fuel q cc)
                        p (addedPass wd now p cache.entries l2).kept
                        (ensureChildren
                          (addedPass wd now p cache.entries l2).kept
                          (removedPass wd p
                            (addedPass wd now p cache.entries l2).kept
                            cache.entries cache.children).children)).events),
                    ?_⟩, fun he => by simp at he⟩
                  simp [ht1, List.append_assoc]
              | none =>
                obtain ⟨hkeptEq, hevEq, haP⟩ := hA2 haC
                simp only [haC, haP, hkeptEq]
                obtain ⟨⟨t2, ht2⟩, hR2⟩ :=
                  @removedPassC_align wd p
                    (addedPass wd now p cache.entries l2).kept
                    cache.entries cache.children
                    (addedPassC wd now p cache.entries l2 b0).budget
                cases hrC : (removedPassC wd p
                    (addedPass wd now p cache.entries l2).kept
                    cache.entries cache.children
                    (addedPassC wd now p cache.entries l2 b0).budget).err with
                | some er =>
                  simp only [hrC]
                  refine ⟨⟨t2 ++
                    (sweepChildren (fun q cc => sweep wd now fsys fuel q cc)
                      p (addedPass wd now p cache.entries l2).kept
                      (ensureChildren
                        (addedPass wd now p cache.entries l2).kept
                        (removedPass wd p
                          (addedPass wd now p cache.entries l2).kept
                          cache.entries cache.children).children)).events,
                    ?_⟩, fun he => by simp at he⟩
                  simp [hevEq, ht2, List.append_assoc]
                | none =>
                  obtain ⟨hchEq, hrevEq⟩ := hR2 hrC
                  simp only [hrC, hchEq]
                  obtain ⟨⟨t3, ht3⟩, hC2⟩ :=
                    @sweepChildrenC_align
                      (fun q cc => sweep wd now fsys fuel q cc)
                      (fun q cc bb => sweepC wd now fsys fuel q cc bb) p
                      (fun q cc bb => ih q cc bb)
                      (addedPass wd now p cache.entries l2).kept
                      (ensureChildren
                        (addedPass wd now p cache.entries l2).kept
                        (removedPass wd p
                          (addedPass wd now p cache.entries l2).kept
                          cache.entries cache.children).children)
                      (removedPassC wd p
                        (addedPass wd now p cache.entries l2).kept
                        cache.entries cache.children
                        (addedPassC wd now p cache.entries l2 b0).budget).budget
                  refine ⟨⟨t3, ?_⟩, fun he => ?_⟩
                  · simp [hevEq, hrevEq, ht3, List.append_assoc]
                  · have he2 : (sweepChildrenC
                        (fun q cc bb => sweepC wd now fsys fuel q cc bb) p
                        (addedPass wd now p cache.entries l2).kept
                        (ensureChildren
                          (addedPass wd now p cache.entries l2).kept
                          (removedPass wd p
                            (addedPass wd now p cache.entries l2).kept
                            cache.entries cache.children).children)
                        (removedPassC wd p
                          (addedPass wd now p cache.entries l2).kept
                          cache.entries cache.children
                          (addedPassC wd now p cache.entries l2 b0).budget).budget).err =
                        none := by
                      simpa using he
                    obtain ⟨hc2, he2e, hp2⟩ := hC2 he2
                    refine ⟨by simp [hc2], ?_, by simpa using hp2⟩
                    simp [hevEq, hrevEq, he2e]

/-! The claims. -/

/-- C5: a directory whose full path is rejected by the configured directory
filter is skipped entirely: the visit returns without error, emits no
events for anything under it, and leaves the directory's cache node — its
entries and its children — unchanged.  This holds for every file-system
state and every sweep, so nothing under the rejected directory is ever
reported while the filter keeps rejecting it, whatever happens to the
files there. -/
theorem C5_dir_filter_rejected (wd : Watcher) (now : Int) (fsys : FSNode)
    (fuel : Nat) (p : Path) (cache : DirCache) (f : Filter)
    (hdf : wd.dirFilter = some f)
    (hrej : f (prependSubRoot wd p) = .ok false) :
    sweep wd now fsys fuel p cache = ⟨cache, [], none⟩ := by
  have hdo : dirOf wd (prependSubRoot wd p) = .ok false := by
    simp [dirOf, hdf, hrej]
  cases fuel <;> (rw [sweep]; simp [hdo])

/-- Witness for C5: a directory filter rejecting `hello/foo` makes the
visit of `hello/foo` a no-op on a concrete file system that has files
under it. -/
theorem C5_dir_filter_rejected_witness :
    sweep ⟨[], 255, none,
        some (fun q => .ok (decide (q ≠ ["hello", "foo"]))), 10, 0⟩
      0 (.dir [("hello", .dir [("foo", .dir [("a", .file 0)])])]) 10
      ["hello", "foo"] (.mk [("a", ⟨false, 0⟩)] []) =
      ⟨.mk [("a", ⟨false, 0⟩)] [], [], none⟩ :=
  C5_dir_filter_rejected _ 0 _ 10 ["hello", "foo"] _
    (fun q => .ok (decide (q ≠ ["hello", "foo"]))) rfl (by rfl)

/-- C4: two consecutive successful sweeps of the same (well-formed) file
system with no change in between — same tree, same clock — produce zero
events on the second sweep; the cache is already stable after the first. -/
theorem C4_second_sweep_no_events (wd : Watcher) (now : Int) (fsys : FSNode)
    (cache : DirCache) (hwf : fsys.WF)
    (h1 : (Sweep wd now fsys cache).err = none) :
    Sweep wd now fsys (Sweep wd now fsys cache).cache =
      ⟨(Sweep wd now fsys cache).cache, [], none⟩ := by
  cases hg : getSweepFS wd fsys with
  | error er =>
    have hS : Sweep wd now fsys cache = ⟨cache, [], some er⟩ := by
      unfold Sweep
      rw [hg]
    rw [hS] at h1
    simp at h1
  | ok sub =>
    have hS : ∀ c : DirCache,
        Sweep wd now fsys c = sweep wd now sub wd.maxDepth [] c := by
      intro c
      unfold Sweep
      rw [hg]
    rw [hS] at h1
    rw [hS, hS]
    exact sweep_idem (getSweepFS_WF hwf hg) wd.maxDepth [] cache h1

/-- Witness for C4: on the concrete file system of the repository's test
(`foo` containing "hello"), the second sweep emits nothing. -/
theorem C4_second_sweep_no_events_witness :
    (Sweep ⟨[], 255, none, none, 10, 0⟩ 100 (.dir [("foo", .file 0)])
        newDirCache).err = none ∧
    Sweep ⟨[], 255, none, none, 10, 0⟩ 100 (.dir [("foo", .file 0)])
        (Sweep ⟨[], 255, none, none, 10, 0⟩ 100 (.dir [("foo", .file 0)])
          newDirCache).cache =
      ⟨(Sweep ⟨[], 255, none, none, 10, 0⟩ 100 (.dir [("foo", .file 0)])
          newDirCache).cache, [], none⟩ := by
  refine ⟨by decide, ?_⟩
  apply C4_second_sweep_no_events
  · exact FSNode.WF.dir _ (by simp [keysNodup]) (by
      intro n c h
      simp at h
      rw [h.2]
      exact FSNode.WF.file 0)
  · decide

/-- C2, counterexample to the claim as stated: with write-stability
threshold 10, current time 100 and a file `a` with modification time 95,
the entry is within the threshold (unstable), the sweep succeeds — yet,
because `a` was already cached, the updated cache still contains an entry
for `a`.  The claim that an unstable listed entry "contributes no entry in
the updated cache" is therefore false: the code only discards unstable
entries that are absent from the previous cache. -/
theorem C2_unstable_cached_entry_counterexample :
    unstableB ⟨[], 255, none, none, 10, 10⟩ 100 ⟨false, 95⟩ = true ∧
    (Sweep ⟨[], 255, none, none, 10, 10⟩ 100 (.dir [("a", .file 95)])
        (.mk [("a", ⟨false, 95⟩)] [])).err = none ∧
    lookupKey "a"
        (Sweep ⟨[], 255, none, none, 10, 10⟩ 100 (.dir [("a", .file 95)])
          (.mk [("a", ⟨false, 95⟩)] [])).cache.entries =
      some ⟨false, 95⟩ :=
  ⟨by decide, by decide, by decide⟩

/-- C2, amended: after a successful directory visit the cache's entry set
equals the filter-surviving listing minus the *new* unstable files: an
entry survives iff it is a directory, or was already cached, or is stable.
Only listed files that are unstable AND absent from the previous cache are
excluded from the updated cache and produce no Added event. -/
theorem C2_amended_stability_exclusion (wd : Watcher) (now : Int)
    (fsys : FSNode) (fuel : Nat) (p : Path) (cache : DirCache)
    (l l2 : List (String × Entry)) (hwf : fsys.WF)
    (hdo : dirOf wd (prependSubRoot wd p) = .ok true)
    (hrd : readDir fsys p = some l)
    (hfe : filterEntries wd p l = .ok l2) :
    (sweep wd now fsys (fuel + 1) p cache).cache.entries =
      l2.filter (keepB wd now cache.entries) ∧
    ∀ n e, (n, e) ∈ l2 → e.isDir = false →
      lookupKey n cache.entries = none → unstableB wd now e = true →
      lookupKey n (sweep wd now fsys (fuel + 1) p cache).cache.entries =
          none ∧
      (⟨FileAdded, prependSubRoot wd (p ++ [n])⟩ : Event) ∉
        (sweep wd now fsys (fuel + 1) p cache).events := by
  have hF : ∀ n e, (n, e) ∈ l2 → e.isDir = false →
      lookupKey n cache.entries = none →
      filterOf wd (prependSubRoot wd (p ++ [n])) = .ok true :=
    fun n e hm hd _ => filterOf_ok_of_mem hfe hm hd
  have hadd := @addedPass_eq wd now p cache.entries l2 hF
  have haerr : (addedPass wd now p cache.entries l2).err = none := by
    rw [hadd]
  have hkept : (addedPass wd now p cache.entries l2).kept =
      l2.filter (keepB wd now cache.entries) := by rw [hadd]
  have hl2nodup : keysNodup l2 :=
    keysNodup_sublist (filterEntries_sublist hfe) (readDir_keysNodup hwf hrd)
  rw [sweep_unfold_main hdo hrd hfe haerr]
  constructor
  · simp only [DirCache.entries_mk]
    exact hkept
  · intro n e hmem hd hlk hun
    constructor
    · simp only [DirCache.entries_mk, hkept]
      rw [lookupKey_eq_none_iff]
      intro hin
      obtain ⟨pr, hpr, hfst⟩ := List.mem_map.mp hin
      obtain ⟨n', e'⟩ := pr
      simp only at hfst
      subst hfst
      have hprf := List.mem_filter.mp hpr
      have he' : e' = e := mem_unique_of_keysNodup hl2nodup hprf.1 hmem
      rw [he'] at hprf
      simp [keepB, hd, hlk, hun] at hprf
    · intro hx
      rcases List.mem_append.mp hx with hx | hx
      swap
      · obtain ⟨m, e2, n', s, _, _, hfile⟩ :=
          sweepChildren_events_shape
            (fun q c x hx => sweep_events_shape fuel q c x hx) hx
        have : prependSubRoot wd (p ++ m :: n' :: s) =
            prependSubRoot wd (p ++ [n]) := by
          simpa using hfile.symm
        exact prepend_deep_ne_singleton this
      rcases List.mem_append.mp hx with hx | hx
      · rw [hadd] at hx
        simp only at hx
        split at hx
        · obtain ⟨pr, hpr, heq⟩ := List.mem_map.mp hx
          obtain ⟨n', e'⟩ := pr
          have hfile : prependSubRoot wd (p ++ [n']) =
              prependSubRoot wd (p ++ [n]) := by
            have := congrArg Event.file heq
            simpa using this
          have hn : n' = n := name_eq_of_prepend_singleton hfile
          subst hn
          have hf := List.mem_filter.mp hpr
          have he' : e' = e := mem_unique_of_keysNodup hl2nodup hf.1 hmem
          rw [he'] at hf
          simp [addB, hun] at hf
        · cases hx
      · have hsh := (removedPass_events_shape hx).1
        simp [FileAdded, FileRemoved] at hsh

/-- Witness for the amended C2: a new unstable file neither enters the
cache nor produces an Added event, and the updated cache is exactly the
kept listing. -/
theorem C2_amended_stability_exclusion_witness :
    (sweep ⟨[], 255, none, none, 10, 10⟩ 100 (.dir [("a", .file 95)]) 10 []
        newDirCache).cache.entries =
      [("a", (⟨false, 95⟩ : Entry))].filter
        (keepB ⟨[], 255, none, none, 10, 10⟩ 100 newDirCache.entries) ∧
    lookupKey "a"
        (sweep ⟨[], 255, none, none, 10, 10⟩ 100 (.dir [("a", .file 95)]) 10
          [] newDirCache).cache.entries = none ∧
    (⟨FileAdded, ["a"]⟩ : Event) ∉
      (sweep ⟨[], 255, none, none, 10, 10⟩ 100 (.dir [("a", .file 95)]) 10 []
        newDirCache).events := by
  have hwf : FSNode.WF (.dir [("a", .file 95)]) :=
    FSNode.WF.dir _ (by simp [keysNodup]) (by
      intro n c h
      simp at h
      rw [h.2]
      exact FSNode.WF.file 95)
  have h := C2_amended_stability_exclusion ⟨[], 255, none, none, 10, 10⟩ 100
    (.dir [("a", .file 95)]) 9 [] newDirCache [("a", ⟨false, 95⟩)]
    [("a", ⟨false, 95⟩)] hwf rfl rfl rfl
  have h3 := h.2 "a" ⟨false, 95⟩ (by simp) rfl rfl (by decide)
  exact ⟨h.1, h3.1, h3.2⟩

/-- C3: from an empty cache, sweeping a file system holding a single file
`foo` older than the write-stability threshold emits exactly the one event
`{Added, "foo"}` and no error; in general, within a directory visit an
Added event is emitted for every listed file that passes the file filter,
is stable, and is absent from the previous cache (with Added events
enabled in the mask). -/
theorem C3_added_detection :
    ((Sweep NewWatcher 20000000000 (.dir [("foo", .file 0)])
        newDirCache).events = [⟨FileAdded, ["foo"]⟩] ∧
      (Sweep NewWatcher 20000000000 (.dir [("foo", .file 0)])
        newDirCache).err = none) ∧
    ∀ (wd : Watcher) (now : Int) (fsys : FSNode) (fuel : Nat) (p : Path)
      (cache : DirCache) (l l2 : List (String × Entry)) (n : String)
      (e : Entry),
      dirOf wd (prependSubRoot wd p) = .ok true →
      readDir fsys p = some l →
      filterEntries wd p l = .ok l2 →
      (n, e) ∈ l →
      filterOf wd (prependSubRoot wd (p ++ [n])) = .ok true →
      e.isDir = false →
      lookupKey n cache.entries = none →
      unstableB wd now e = false →
      wd.eventsMask.land FileAdded ≠ 0 →
      (⟨FileAdded, prependSubRoot wd (p ++ [n])⟩ : Event) ∈
        (sweep wd now fsys (fuel + 1) p cache).events := by
  refine ⟨⟨by decide, by decide⟩, ?_⟩
  intro wd now fsys fuel p cache l l2 n e hdo hrd hfe hml hfo hd hlk hst hmask
  have hl2 : (n, e) ∈ l2 := by
    rw [filterEntries_eq_filter hfe]
    refine List.mem_filter.mpr ⟨hml, ?_⟩
    simp [filterKeepB, hd, hfo]
  have hF : ∀ n e, (n, e) ∈ l2 → e.isDir = false →
      lookupKey n cache.entries = none →
      filterOf wd (prependSubRoot wd (p ++ [n])) = .ok true :=
    fun n e hm hd _ => filterOf_ok_of_mem hfe hm hd
  have hadd := @addedPass_eq wd now p cache.entries l2 hF
  have haerr : (addedPass wd now p cache.entries l2).err = none := by
    rw [hadd]
  rw [sweep_unfold_main hdo hrd hfe haerr]
  apply List.mem_append.mpr
  left
  apply List.mem_append.mpr
  left
  rw [hadd]
  simp only [if_pos hmask]
  exact List.mem_map.mpr
    ⟨(n, e), List.mem_filter.mpr ⟨hl2, by simp [addB, hd, hlk, hst]⟩, rfl⟩

/-- Witness for C3: a stable uncached file `bar` in the listing produces
its Added event. -/
theorem C3_added_detection_witness :
    (⟨FileAdded, ["bar"]⟩ : Event) ∈
      (sweep ⟨[], 255, none, none, 10, 0⟩ 5 (.dir [("bar", .file 0)]) 10 []
        newDirCache).events := by
  have h := (C3_added_detection).2 ⟨[], 255, none, none, 10, 0⟩ 5
    (.dir [("bar", .file 0)]) 9 [] newDirCache [("bar", ⟨false, 0⟩)]
    [("bar", ⟨false, 0⟩)] "bar" ⟨false, 0⟩ rfl rfl rfl (by simp) rfl rfl rfl
    (by decide) (by decide)
  simpa using h

/-- C7: the events of one directory visit decompose as Added events for
this directory, then Removed events, then the events of the descent into
child directories — Added events carry paths exactly one component below
the directory, descent events at least two. -/
theorem C7_event_ordering (wd : Watcher) (now : Int) (fsys : FSNode)
    (fuel : Nat) (p : Path) (cache : DirCache) :
    ∃ evA evR evC : List Event,
      (sweep wd now fsys fuel p cache).events = evA ++ evR ++ evC ∧
      (∀ x ∈ evA, x.typ = FileAdded ∧
        x.file.length = (prependSubRoot wd p).length + 1) ∧
      (∀ x ∈ evR, x.typ = FileRemoved) ∧
      (∀ x ∈ evC, (prependSubRoot wd p).length + 2 ≤ x.file.length) := by
  cases hdo : dirOf wd (prependSubRoot wd p) with
  | error er =>
    refine ⟨[], [], [], ?_, by simp, by simp, by simp⟩
    cases fuel <;> (rw [sweep]; simp [hdo])
  | ok b =>
    cases b with
    | false =>
      refine ⟨[], [], [], ?_, by simp, by simp, by simp⟩
      cases fuel <;> (rw [sweep]; simp [hdo])
    | true =>
      cases fuel with
      | zero =>
        refine ⟨[], [], [], ?_, by simp, by simp, by simp⟩
        rw [sweep]
        simp [hdo]
      | succ fuel =>
        cases hrd : readDir fsys p with
        | none =>
          refine ⟨[], [], [], ?_, by simp, by simp, by simp⟩
          rw [sweep]
          simp [hdo, hrd]
        | some l =>
          cases hfe : filterEntries wd p l with
          | error er =>
            refine ⟨[], [], [], ?_, by simp, by simp, by simp⟩
            rw [sweep]
            simp [hdo, hrd, hfe]
          | ok l2 =>
            cases haerr : (addedPass wd now p cache.entries l2).err with
            | some er =>
              refine ⟨(addedPass wd now p cache.entries l2).events, [], [],
                ?_, ?_, by simp, by simp⟩
              · rw [sweep]
                simp [hdo, hrd, hfe, haerr]
              · intro x hx
                obtain ⟨ht, n, e, _, _, hf⟩ := addedPass_events_shape hx
                refine ⟨ht, ?_⟩
                rw [hf, prependSubRoot_append]
                simp
            | none =>
              refine ⟨(addedPass wd now p cache.entries l2).events,
                (removedPass wd p (addedPass wd now p cache.entries l2).kept
                  cache.entries cache.children).events,
                (sweepChildren (fun q cc => sweep wd now fsys fuel q cc) p
                  (addedPass wd now p cache.entries l2).kept
                  (ensureChildren (addedPass wd now p cache.entries l2).kept
                    (removedPass wd p
                      (addedPass wd now p cache.entries l2).kept
                      cache.entries cache.children).children)).events,
                ?_, ?_, ?_, ?_⟩
              · rw [sweep_unfold_main hdo hrd hfe haerr]
              · intro x hx
                obtain ⟨ht, n, e, _, _, hf⟩ := addedPass_events_shape hx
                refine ⟨ht, ?_⟩
                rw [hf, prependSubRoot_append]
                simp
              · intro x hx
                exact (removedPass_events_shape hx).1
              · intro x hx
                obtain ⟨m, e, n', s, _, _, hf⟩ :=
                  sweepChildren_events_shape
                    (fun q c x hx => sweep_events_shape fuel q c x hx) hx
                rw [hf, prependSubRoot_append]
                simp [List.length_append]

/-- C1: a name present in a directory's cache entries but absent from the
current listing yields, when the cached entry was a file, exactly one
Removed event for its path; when it was a directory, no event for the
directory's own path, a Removed event for every file transitively cached
under the corresponding child cache node, and removal of that child cache
subtree from the updated cache. -/
theorem C1_removed_detection (wd : Watcher) (now : Int) (fsys : FSNode)
    (fuel : Nat) (p : Path) (cache : DirCache)
    (l l2 : List (String × Entry)) (n0 : String) (pe0 : Entry)
    (hnodupC : keysNodup cache.entries)
    (hdo : dirOf wd (prependSubRoot wd p) = .ok true)
    (hrd : readDir fsys p = some l)
    (hfe : filterEntries wd p l = .ok l2)
    (hmem : lookupKey n0 cache.entries = some pe0)
    (habs : lookupKey n0 l = none)
    (hmask : wd.eventsMask.land FileRemoved ≠ 0) :
    (pe0.isDir = false →
      ((sweep wd now fsys (fuel + 1) p cache).events.count
        ⟨FileRemoved, prependSubRoot wd (p ++ [n0])⟩) = 1) ∧
    (pe0.isDir = true →
      (∀ t, (⟨t, prependSubRoot wd (p ++ [n0])⟩ : Event) ∉
          (sweep wd now fsys (fuel + 1) p cache).events) ∧
      lookupKey n0 (sweep wd now fsys (fuel + 1) p cache).cache.children =
        none ∧
      ∀ cnode, lookupKey n0 cache.children = some cnode →
        ∀ q ∈ cachedFilePaths (p ++ [n0]) cnode,
          (⟨FileRemoved, prependSubRoot wd q⟩ : Event) ∈
            (sweep wd now fsys (fuel + 1) p cache).events) := by
  have hF : ∀ n e, (n, e) ∈ l2 → e.isDir = false →
      lookupKey n cache.entries = none →
      filterOf wd (prependSubRoot wd (p ++ [n])) = .ok true :=
    fun n e hm hd _ => filterOf_ok_of_mem hfe hm hd
  have hadd := @addedPass_eq wd now p cache.entries l2 hF
  have haerr : (addedPass wd now p cache.entries l2).err = none := by
    rw [hadd]
  have hmemces : (n0, pe0) ∈ cache.entries := mem_of_lookupKey_eq_some hmem
  have hkeptl : List.Sublist (addedPass wd now p cache.entries l2).kept l :=
    List.Sublist.trans addedPass_kept_sublist (filterEntries_sublist hfe)
  have hn0 : n0 ∉ ((addedPass wd now p cache.entries l2).kept).map
      Prod.fst := by
    intro hin
    exact lookupKey_eq_none_iff.mp habs
      (List.Sublist.mem hin (List.Sublist.map Prod.fst hkeptl))
  have hkeptlookup :
      lookupKey n0 (addedPass wd now p cache.entries l2).kept = none :=
    lookupKey_eq_none_iff.mpr hn0
  rw [sweep_unfold_main hdo hrd hfe haerr]
  constructor
  · intro hdirF
    rw [List.count_append, List.count_append]
    have hca : ((addedPass wd now p cache.entries l2).events.count
        (⟨FileRemoved, prependSubRoot wd (p ++ [n0])⟩ : Event)) = 0 := by
      rw [List.count_eq_zero]
      intro hx
      have hsh := (addedPass_events_shape hx).1
      simp [FileAdded, FileRemoved] at hsh
    have hcc : ((sweepChildren (fun q cc => sweep wd now fsys fuel q cc) p
        (addedPass wd now p cache.entries l2).kept
        (ensureChildren (addedPass wd now p cache.entries l2).kept
          (removedPass wd p (addedPass wd now p cache.entries l2).kept
            cache.entries cache.children).children)).events.count
        (⟨FileRemoved, prependSubRoot wd (p ++ [n0])⟩ : Event)) = 0 := by
      rw [List.count_eq_zero]
      intro hx
      obtain ⟨m, e, n', s, _, _, hf⟩ :=
        sweepChildren_events_shape
          (fun q c x hx => sweep_events_shape fuel q c x hx) hx
      have : prependSubRoot wd (p ++ m :: n' :: s) =
          prependSubRoot wd (p ++ [n0]) := by
        simpa using hf.symm
      exact prepend_deep_ne_singleton this
    rw [hca, hcc,
      removedPass_count_file hnodupC hmemces hdirF hkeptlookup hmask]
  · intro hdirT
    refine ⟨?_, ?_, ?_⟩
    · intro t hx
      rcases List.mem_append.mp hx with hx | hx
      swap
      · obtain ⟨m, e, n', s, _, _, hf⟩ :=
          sweepChildren_events_shape
            (fun q c x hx => sweep_events_shape fuel q c x hx) hx
        have : prependSubRoot wd (p ++ m :: n' :: s) =
            prependSubRoot wd (p ++ [n0]) := by
          simpa using hf.symm
        exact prepend_deep_ne_singleton this
      rcases List.mem_append.mp hx with hx | hx
      · obtain ⟨_, n', e', hm', _, hf⟩ := addedPass_events_shape hx
        have hn' : n' = n0 := name_eq_of_prepend_singleton (by simpa using hf.symm)
        subst hn'
        exact lookupKey_eq_none_iff.mp habs
          (List.mem_map.mpr
            ⟨(n', e'), List.Sublist.mem hm' (filterEntries_sublist hfe), rfl⟩)
      · obtain ⟨_, n', pe', hm', hk', hca⟩ := removedPass_events_shape hx
        rcases hca with ⟨hdf, hf⟩ | ⟨_, m, q, hf⟩
        · have hn' : n' = n0 :=
            name_eq_of_prepend_singleton (by simpa using hf.symm)
          subst hn'
          have : pe' = pe0 := mem_unique_of_keysNodup hnodupC hm' hmemces
          rw [this, hdirT] at hdf
          cases hdf
        · have : prependSubRoot wd (p ++ n' :: m :: q) =
              prependSubRoot wd (p ++ [n0]) := by
            simpa using hf.symm
          exact prepend_deep_ne_singleton this
    · simp only [DirCache.children_mk]
      rw [sweepChildren_lookup_not_mem hn0, ensureChildren_lookup_not_mem hn0]
      exact removedPass_children_erased hnodupC hmemces hdirT hkeptlookup
    · intro cnode hcn q hq
      apply List.mem_append.mpr
      left
      apply List.mem_append.mpr
      right
      apply removedPass_subset_dir hnodupC hmemces hdirT hkeptlookup hcn
      rw [sweepDeleted_eq_cachedFilePaths hmask]
      exact List.mem_map.mpr ⟨q, hq, rfl⟩

/-- Witness for C1, directory case: with an empty current listing and a
cached directory `gone` holding the cached file `gone/a`, the sweep emits
`{Removed, gone/a}`, emits nothing for `gone` itself, and erases the
child cache node. -/
theorem C1_removed_detection_witness :
    ((⟨FileRemoved, ["gone"]⟩ : Event) ∉
      (sweep ⟨[], 255, none, none, 10, 0⟩ 0 (.dir []) 10 []
        (.mk [("gone", ⟨true, 0⟩)]
          [("gone", .mk [("a", ⟨false, 0⟩)] [])])).events) ∧
    lookupKey "gone"
        (sweep ⟨[], 255, none, none, 10, 0⟩ 0 (.dir []) 10 []
          (.mk [("gone", ⟨true, 0⟩)]
            [("gone", .mk [("a", ⟨false, 0⟩)] [])])).cache.children =
      none ∧
    (⟨FileRemoved, ["gone", "a"]⟩ : Event) ∈
      (sweep ⟨[], 255, none, none, 10, 0⟩ 0 (.dir []) 10 []
        (.mk [("gone", ⟨true, 0⟩)]
          [("gone", .mk [("a", ⟨false, 0⟩)] [])])).events := by
  have h := C1_removed_detection ⟨[], 255, none, none, 10, 0⟩ 0 (.dir []) 9 []
    (.mk [("gone", ⟨true, 0⟩)] [("gone", .mk [("a", ⟨false, 0⟩)] [])])
    [] [] "gone" ⟨true, 0⟩ (by simp [keysNodup, DirCache.entries_mk]) rfl rfl
    rfl rfl rfl (by decide)
  have h2 := h.2 rfl
  refine ⟨by simpa using h2.1 FileRemoved, h2.2.1, ?_⟩
  have h3 := h2.2.2 (.mk [("a", ⟨false, 0⟩)] []) rfl ["gone", "a"] (by
    simp [cachedFilePaths, cachedFilePathsEntries])
  simpa using h3

/-- C6: with a sub-root configured that does not resolve in the base file
system, `Sweep` fails with the root-not-found error and emits nothing and
changes nothing; when the sub-root resolves to a directory (and no filters
are configured), the sweep succeeds and every emitted event's path starts
with the sub-root. -/
theorem C6_sub_root_existence (wd : Watcher) (now : Int) (fsys : FSNode)
    (cache : DirCache) :
    (wd.subRoot ≠ [] → fsFind fsys wd.subRoot = none →
      Sweep wd now fsys cache = ⟨cache, [], some .rootNotFound⟩) ∧
    (∀ es, wd.fileFilter = none → wd.dirFilter = none → fsys.WF →
      fsFind fsys wd.subRoot = some (.dir es) →
      (Sweep wd now fsys cache).err = none ∧
      ∀ x ∈ (Sweep wd now fsys cache).events,
        ∃ q, x.file = wd.subRoot ++ q) := by
  constructor
  · intro hne hnone
    have hg : getSweepFS wd fsys = .error .rootNotFound := by
      simp [getSweepFS, hne, hnone]
    unfold Sweep
    rw [hg]
  · intro es hff hdf hwf hfind
    have hsub : ∃ sub, getSweepFS wd fsys = .ok sub ∧
        fsFind sub [] = some (.dir es) ∧ sub.WF := by
      by_cases hs : wd.subRoot = []
      · refine ⟨fsys, by simp [getSweepFS, hs], ?_, hwf⟩
        rw [hs] at hfind
        exact hfind
      · exact ⟨.dir es, by simp [getSweepFS, hs, hfind], rfl,
          hwf.fsFind hfind⟩
    obtain ⟨sub, hg, hroot, hsubwf⟩ := hsub
    have hS : Sweep wd now fsys cache = sweep wd now sub wd.maxDepth [] cache := by
      unfold Sweep
      rw [hg]
    rw [hS]
    refine ⟨sweep_err_none hff hdf hsubwf wd.maxDepth [] cache ⟨es, hroot⟩, ?_⟩
    intro x hx
    obtain ⟨n, q, hfq⟩ := sweep_events_shape wd.maxDepth [] cache x hx
    refine ⟨n :: q, ?_⟩
    rw [hfq]
    by_cases hs : wd.subRoot = [] <;> simp [prependSubRoot, hs]

/-- Witness for C6: with sub-root `world`, sweeping a file system lacking
`world` fails with the root-not-found error; once `world/a` exists the
sweep succeeds. -/
theorem C6_sub_root_existence_witness :
    Sweep ⟨["world"], 255, none, none, 10, 0⟩ 0 (.dir [("hello", .dir [])])
        newDirCache = ⟨newDirCache, [], some .rootNotFound⟩ ∧
    (Sweep ⟨["world"], 255, none, none, 10, 0⟩ 0
        (.dir [("world", .dir [("a", .file 0)])]) newDirCache).err = none := by
  constructor
  · exact (C6_sub_root_existence ⟨["world"], 255, none, none, 10, 0⟩ 0
      (.dir [("hello", .dir [])]) newDirCache).1 (by simp) rfl
  · refine ((C6_sub_root_existence ⟨["world"], 255, none, none, 10, 0⟩ 0
      (.dir [("world", .dir [("a", .file 0)])]) newDirCache).2
      [("a", .file 0)] rfl rfl ?_ rfl).1
    refine FSNode.WF.dir _ (by simp [keysNodup]) ?_
    intro n c h
    simp at h
    rw [h.2]
    refine FSNode.WF.dir _ (by simp [keysNodup]) ?_
    intro n2 c2 h2
    simp at h2
    rw [h2.2]
    exact FSNode.WF.file 0

/-- C9: the sub-root handed to `WithSubRoot` is normalized — `.` and `/`
normalize to the empty string, slashes are trimmed so `/p/` stores the
same sub-root as `p` — and with an empty sub-root the option is the
identity on the watcher and the sub-root prefixing of event paths is the
identity on paths. -/
theorem C9_sub_root_normalization :
    normalizePath "." = "" ∧
    normalizePath "/" = "" ∧
    normalizePath "/p/" = "p" ∧
    (∀ wd : Watcher, WithSubRoot "/p/" wd = WithSubRoot "p" wd) ∧
    (∀ wd : Watcher, wd.subRoot = [] → WithSubRoot "." wd = wd) ∧
    (∀ (wd : Watcher) (p : Path), wd.subRoot = [] →
      prependSubRoot wd p = p) := by
  refine ⟨by decide, by decide, by decide, ?_, ?_, ?_⟩
  · intro wd
    unfold WithSubRoot
    rw [show normalizePath "/p/" = normalizePath "p" from by decide]
  · intro wd h
    unfold WithSubRoot
    rw [show normalizePath "." = "" from by decide,
      show splitRoot "" = [] from by decide, ← h]
  · intro wd p h
    simp [prependSubRoot, h]

/-- Witness for C9: on the default watcher (no sub-root), `WithSubRoot "."`
changes nothing and event-path prefixing is the identity. -/
theorem C9_sub_root_normalization_witness :
    WithSubRoot "." NewWatcher = NewWatcher ∧
    prependSubRoot NewWatcher ["x"] = ["x"] :=
  ⟨C9_sub_root_normalization.2.2.2.2.1 NewWatcher rfl,
    C9_sub_root_normalization.2.2.2.2.2 NewWatcher ["x"] rfl⟩

/-- C8: a sweep task that observes cancellation (budget exhausted at its
entry checkpoint) returns the cancellation error immediately, emits
nothing, and leaves its cache node untouched; any budgeted run emits a
prefix of the uncancelled run's events (nothing beyond what the plain
sweep would have sent before the cut); and a `Sweep` whose context is
cancelled at the start returns promptly with the cancellation error,
no events and no cache change. -/
theorem C8_cancellation (wd : Watcher) (now : Int) (fsys : FSNode) :
    (∀ (fuel : Nat) (p : Path) (cache : DirCache),
      sweepC wd now fsys fuel p cache 0 = ⟨cache, [], 0, some .canceled⟩) ∧
    (∀ (fuel : Nat) (p : Path) (cache : DirCache) (b : Nat),
      ∃ t, (sweep wd now fsys fuel p cache).events =
        (sweepC wd now fsys fuel p cache b).events ++ t) ∧
    (∀ (cache : DirCache) (sub : FSNode), getSweepFS wd fsys = .ok sub →
      SweepC wd now fsys cache 0 = ⟨cache, [], 0, some .canceled⟩) := by
  refine ⟨?_, ?_, ?_⟩
  · intro fuel p cache
    cases fuel <;> rfl
  · intro fuel p cache b
    exact (sweepC_align fuel p cache b).1
  · intro cache sub hg
    have hS : SweepC wd now fsys cache 0 =
        sweepC wd now sub wd.maxDepth [] cache 0 := by
      unfold SweepC
      rw [hg]
    rw [hS]
    cases wd.maxDepth <;> rfl

/-- Witness for C8: on a concrete file system, the zero-budget sweep is
cancelled immediately with no events and no cache change, both for one
task and for the whole `Sweep`. -/
theorem C8_cancellation_witness :
    sweepC NewWatcher 0 (.dir [("foo", .file 0)]) 10 [] newDirCache 0 =
      ⟨newDirCache, [], 0, some .canceled⟩ ∧
    SweepC NewWatcher 0 (.dir [("foo", .file 0)]) newDirCache 0 =
      ⟨newDirCache, [], 0, some .canceled⟩ :=
  ⟨(C8_cancellation NewWatcher 0 (.dir [("foo", .file 0)])).1 10 []
      newDirCache,
    (C8_cancellation NewWatcher 0 (.dir [("foo", .file 0)])).2.2 newDirCache
      (.dir [("foo", .file 0)]) rfl⟩

end Watchdir
